import Mathlib

/-!
Verification development for the Autonomous-Incident-Management repository.

This file gives a shallow embedding, in Lean 4, of the pure data-manipulation
core of the repository:

* `src/utils/monitor_context.py` — the context compactor (`MonitorContext`):
  token estimation, text extraction/normalization, relevance scoring,
  forced retention, budgeted packing, chronological re-sort and dedup;
* `src/utils/memory_utils.py` — memory normalization (`normalize_memory`);
* `src/agent.py` — result truncation (`truncate_result`), tool dispatch
  (`dispatch_tool` / `safe_call`), and the per-tool-call portion of the
  agent loop that writes memory records.

Python concretions are modelled as follows: Python `str` is `String`
(both indexed by code points, so `len`/slicing agree), Python `int` is
`Int`/`Nat`, Python `float` score arithmetic is modelled with exact
rationals `ℚ` (all constants involved are decimal literals), Python
dicts of known shape are structures, `dict.get` defaults are `Option`,
exceptions are `Except`, and the two specific regular expressions used
by the scorer/filters are hand-compiled to executable matchers with
Python `re` word-boundary (`\b`) semantics (word characters taken as
ASCII alphanumerics and underscore).
-/

/-! ### Python string primitives -/

/-- Python whitespace characters stripped by `str.strip()` (ASCII range). -/
def isPySpace (c : Char) : Bool :=
  c == ' ' || c == '\t' || c == '\n' || c == '\r' || c == '\x0b' || c == '\x0c'

/-- Python `str.strip()`: drop whitespace from both ends. -/
def pyStrip (s : String) : String :=
  ⟨((s.data.dropWhile isPySpace).reverse.dropWhile isPySpace).reverse⟩

/-- Python `s[:n]` for a string (slicing counts code points, like `String.length`). -/
def pyTake (n : Nat) (s : String) : String :=
  ⟨s.data.take n⟩

/-- Python `str.lower()` (ASCII case folding). -/
def pyLower (s : String) : String :=
  ⟨s.data.map Char.toLower⟩

/-- Python `pat in s` substring test. -/
def containsSub (pat : List Char) : List Char → Bool
  | [] => pat.isEmpty
  | c :: rest => pat.isPrefixOf (c :: rest) || containsSub pat rest

/-! ### Word-boundary regex matching (Python `re` semantics)

`\b` matches between a word character (`[A-Za-z0-9_]`) and a non-word
character (or the string edge).  The three patterns used by
`monitor_context.py` are compiled by hand below. -/

/-- A regex word character (`\w`, restricted to ASCII). -/
def isWordChar (c : Char) : Bool :=
  c.isAlphanum || c == '_'

/-- Case-insensitively strip the pattern `p` (given lowercase) off the front of `s`,
returning the remainder on success. -/
def stripPatCI : List Char → List Char → Option (List Char)
  | [], s => some s
  | _ :: _, [] => none
  | p :: ps, c :: cs => if c.toLower == p then stripPatCI ps cs else none

/-- `\b` holds just after a match whose final character has word-ness `lastWord`:
the word-ness must flip at the position (string end counts as non-word). -/
def boundaryAfterOK (lastWord : Bool) : List Char → Bool
  | [] => lastWord
  | c :: _ => lastWord != isWordChar c

/-- `\b` holds just before a word character iff the previous character
(`none` = string start) is not a word character. -/
def prevNonWord : Option Char → Bool
  | none => true
  | some c => !isWordChar c

/-- One alternative of a `\b(...)\b` group matches at the head of `s`
(case-insensitive); checks the trailing boundary. -/
def altMatchesAt (alt : List Char) (s : List Char) : Bool :=
  match stripPatCI alt s with
  | some rest => boundaryAfterOK (isWordChar (alt.getLastD 'x')) rest
  | none => false

/-- `re.search` of `\b(alt₁|alt₂|...)\b` with `re.I`: try every position.
All alternatives used start with a word character, so the leading `\b`
reduces to `prevNonWord`. -/
def scanWords (alts : List (List Char)) : Option Char → List Char → Bool
  | _, [] => false
  | prev, c :: rest =>
    (prevNonWord prev && alts.any (fun a => altMatchesAt a (c :: rest)))
      || scanWords alts (some c) rest

/-- Alternatives of the raw-log regex
`\b(INFO|DEBUG|TRACE|ERROR|log\.|traceback|stack)\b` (matched with `re.I`). -/
def logAlts : List (List Char) :=
  [['i','n','f','o'], ['d','e','b','u','g'], ['t','r','a','c','e'],
   ['e','r','r','o','r'], ['l','o','g','.'], ['t','r','a','c','e','b','a','c','k'],
   ['s','t','a','c','k']]

/-- `MonitorContext._is_log`. -/
def isLogText (s : String) : Bool :=
  scanWords logAlts none s.data

/-- Alternatives of the decision/requirement vocabulary regex
`\b(decide|decision|constraint|requirement|todo|must|never|always|severity|critical|high)\b`
(matched with `re.I`). -/
def decisionAlts : List (List Char) :=
  [['d','e','c','i','d','e'], ['d','e','c','i','s','i','o','n'],
   ['c','o','n','s','t','r','a','i','n','t'],
   ['r','e','q','u','i','r','e','m','e','n','t'], ['t','o','d','o'],
   ['m','u','s','t'], ['n','e','v','e','r'], ['a','l','w','a','y','s'],
   ['s','e','v','e','r','i','t','y'], ['c','r','i','t','i','c','a','l'],
   ['h','i','g','h']]

/-- The decision/requirement vocabulary test used by `MonitorContext._score`. -/
def hasDecisionWord (s : String) : Bool :=
  scanWords decisionAlts none s.data

/-- `\b\d{4}-\d{2}-\d{2}\b` matches at the head of `s` (then a trailing boundary
after the final digit). -/
def dateAt : List Char → Bool
  | a :: b :: c :: d :: e :: f :: g :: h :: i :: j :: rest =>
    a.isDigit && b.isDigit && c.isDigit && d.isDigit && e == '-' &&
    f.isDigit && g.isDigit && h == '-' && i.isDigit && j.isDigit &&
    boundaryAfterOK true rest
  | _ => false

/-- Characters of the class `[A-Z0-9-]` in the incident-id pattern. -/
def incClassChar (c : Char) : Bool :=
  ('A' ≤ c && c ≤ 'Z') || c.isDigit || c == '-'

/-- After `INC-`, consume `[A-Z0-9-]+` (at least one character) such that a
trailing `\b` can be placed after the consumed run (regex backtracking). -/
def incTail : List Char → Bool
  | [] => false
  | c :: rest => incClassChar c && (boundaryAfterOK (isWordChar c) rest || incTail rest)

/-- `\bINC-[A-Z0-9-]+\b` matches at the head of `s` (case-sensitive). -/
def incAt : List Char → Bool
  | 'I' :: 'N' :: 'C' :: '-' :: rest => incTail rest
  | _ => false

/-- `re.search(r"\b\d{4}-\d{2}-\d{2}\b|\bINC-[A-Z0-9-]+\b", text)`:
both alternatives begin with a word character (digit / `I`), so the leading
`\b` reduces to `prevNonWord`. -/
def scanDateInc : Option Char → List Char → Bool
  | _, [] => false
  | prev, c :: rest =>
    (prevNonWord prev && (dateAt (c :: rest) || incAt (c :: rest)))
      || scanDateInc (some c) rest

/-- The date / incident-id test used by `MonitorContext._score`. -/
def hasDateOrInc (s : String) : Bool :=
  scanDateInc none s.data

/-! ### `src/utils/monitor_context.py`: data model -/

/-- `estimate_tokens(text) = max(1, math.ceil(len(text) / 4))`. -/
def estimate_tokens (text : String) : Nat :=
  max 1 ((text.length + 3) / 4)

/-- A structured tool result (`structured_content` dict); the five fields read
by `_extract_text_from_block`.  `none` models an absent key and the empty
string is falsy in Python, so both are skipped by `if sc.get(k):`. -/
structure StructuredContent where
  id : Option String
  title : Option String
  severity : Option String
  project : Option String
  reported_issue : Option String
deriving DecidableEq, Repr

/-- A content block of a message: a text block, a raw tool invocation
(`type == 'tool_use'`), or a tool result with a raw content string and an
optional structured payload. -/
inductive Block where
  | text (t : String)
  | tool_use
  | tool_result (content : String) (structured : Option StructuredContent)
deriving DecidableEq, Repr

/-- The content of an incoming message: `None`, a plain string, or a list of
blocks (`str | list` in the source's `Message` type). -/
inductive Content where
  | none
  | str (s : String)
  | blocks (bs : List Block)
deriving DecidableEq, Repr

/-- An incoming message dict: `role` may be absent (`m.get("role", "user")`). -/
structure RawMsg where
  role : Option String
  content : Content
deriving DecidableEq, Repr

/-- A normalized message `{"role": str, "content": str}` — both the items of
the internal `normalized` list and the compactor's output. -/
structure Msg where
  role : String
  content : String
deriving DecidableEq, Repr

/-- `MonitorContext._is_raw_tool_use_block` on our block universe. -/
def isToolUseBlock : Block → Bool
  | .tool_use => true
  | _ => false

/-- The summary parts built from a `structured_content` dict (lines 84–91):
`k:v` for the non-falsy fields `id,title,severity,project`, then the bare
`reported_issue` text if non-falsy. -/
def structuredParts (sc : StructuredContent) : List String :=
  ([("id", sc.id), ("title", sc.title), ("severity", sc.severity),
    ("project", sc.project)].filterMap
      (fun p => match p.2 with
        | some v => if v == "" then Option.none else some (p.1 ++ ":" ++ v)
        | Option.none => Option.none)) ++
  (match sc.reported_issue with
    | some v => if v == "" then [] else [v]
    | Option.none => [])

/-- `MonitorContext._extract_text_from_block` on our block universe.
(`tool_use` blocks are skipped by `extract_text` before this is called.) -/
def extractBlockText : Block → String
  | .text t => t
  | .tool_use => ""
  | .tool_result content structured =>
    match structured with
    | some sc => String.intercalate " | " (structuredParts sc)
    | Option.none => content

/-- `" ".join(p for p in parts if p)`. -/
def joinNonEmpty (parts : List String) : String :=
  String.intercalate " " (parts.filter (fun p => p ≠ ""))

/-- `MonitorContext.extract_text`. -/
def extract_text : Content → String
  | .none => ""
  | .str s => s
  | .blocks bs =>
    joinNonEmpty ((bs.filter (fun b => !isToolUseBlock b)).map extractBlockText)

/-- The `MonitorContext` configuration (constructor keyword arguments with
their defaults).  `drop_raw_tool_use` is stored but never read by
`prepare_context`. -/
structure MonitorContext where
  max_context_tokens : Nat := 3000
  keep_last_user : Nat := 2
  keep_last_assistant : Nat := 2
  min_length : Nat := 3
  drop_raw_tool_use : Bool := true
  drop_logs : Bool := true
deriving DecidableEq, Repr

/-- `MonitorContext._score`, with float arithmetic modelled exactly over `ℚ`
(the `content` of a normalized message is always a plain string, so the
extracted text is the content itself). -/
def scoreOf (drop_logs : Bool) (role : String) (text : String) : ℚ :=
  let s0 : ℚ := 0
  let s1 :=
    if role = "user" then s0 + 1
    else if role = "assistant" then s0 + 0.4
    else if role = "system" then s0 + 0.6
    else s0
  let s2 := if hasDecisionWord text then s1 + 0.5 else s1
  let s3 := if hasDateOrInc text then s2 + 0.25 else s2
  let s4 := if drop_logs && isLogText text then s3 - 0.6 else s3
  max 0 s4

/-! ### `prepare_context`: normalization stage (lines 210–231) -/

/-- One iteration of the normalization loop: `none` means `continue`. -/
def normalizeStep (cfg : MonitorContext) (m : RawMsg) : Option Msg :=
  let role := m.role.getD "user"
  let skipPureToolUse :=
    match m.content with
    | .blocks bs => bs.any isToolUseBlock && bs.all isToolUseBlock
    | _ => false
  if skipPureToolUse then none
  else
    let text := pyStrip (extract_text m.content)
    if text = "" then none
    else if text.length < cfg.min_length then none
    else if cfg.drop_logs && isLogText text &&
        !(containsSub "INC-".data text.data ||
          containsSub "severity".data (pyLower text).data) then none
    else some ⟨role, text⟩

/-- The `normalized` list. -/
def normalizeMsgs (cfg : MonitorContext) (msgs : List RawMsg) : List Msg :=
  msgs.filterMap (normalizeStep cfg)

/-! ### `prepare_context`: forced retention and packing (lines 236–280) -/

/-- Python `lst[-k:]`: for `k = 0` this is the whole list (`lst[0:]`),
otherwise the last `min(k, len)` elements. -/
def lastK (k : Nat) (l : List Msg) : List Msg :=
  if k = 0 then l else l.drop (l.length - k)

/-- `forced = last_users + last_assist` (the forced-retention messages; a
`Msg` is exactly the `(role, content)` pair put into `forced_set`). -/
def forcedList (cfg : MonitorContext) (n : List Msg) : List Msg :=
  lastK cfg.keep_last_user (n.filter (fun m => decide (m.role = "user"))) ++
  lastK cfg.keep_last_assistant (n.filter (fun m => decide (m.role = "assistant")))

/-- The scored candidates: messages not in `forced_set`, paired with their
score (in source order, before sorting). -/
def candidatesOf (cfg : MonitorContext) (n : List Msg) : List (Msg × ℚ) :=
  (n.filter (fun m => decide (m ∉ forcedList cfg n))).map
    (fun m => (m, scoreOf cfg.drop_logs m.role m.content))

/-- The packing state: the remaining token `budget` and the `selected` list. -/
structure PackState where
  budget : Int
  selected : List Msg
deriving DecidableEq, Repr

/-- `try_add`: skip the message whole if it does not fit, otherwise deduct its
cost and append it. -/
def tryAdd (st : PackState) (m : Msg) : PackState × Bool :=
  let cost : Int := (estimate_tokens m.content : Int)
  if st.budget - cost < 0 then (st, false)
  else ({ budget := st.budget - cost, selected := st.selected ++ [m] }, true)

/-- The `forced_in_order` loop: walk `normalized`, keeping messages in
`forced_set` that are not yet in the accumulator. -/
def forcedInOrderAux (f : List Msg) (acc : List Msg) : List Msg → List Msg
  | [] => acc
  | m :: rest =>
    if m ∈ f ∧ m ∉ acc then forcedInOrderAux f (acc ++ [m]) rest
    else forcedInOrderAux f acc rest

/-- `for m in forced_in_order: try_add(m)` (the returned flag is ignored). -/
def addForced (st : PackState) (ms : List Msg) : PackState :=
  ms.foldl (fun s m => (tryAdd s m).1) st

/-- The scored-candidate loop: skip scores `<= 0`, otherwise `try_add`
(a failed add just continues). -/
def addCandidates (st : PackState) (cs : List (Msg × ℚ)) : PackState :=
  cs.foldl (fun s p => if p.2 ≤ 0 then s else (tryAdd s p.1).1) st

/-! ### `prepare_context`: chronological re-sort and dedup (lines 282–296) -/

/-- The index map `{(role, content): i for i, m in enumerate(normalized)}`
with lookup default `0`: a dict comprehension keeps the **last** index written
for each key, and `.get(pair, 0)` yields `0` for pairs not in `normalized`. -/
def lastIdxOf : List Msg → Msg → Nat
  | [], _ => 0
  | a :: l, m => if m ∈ l then lastIdxOf l m + 1 else if a = m then 0 else 0

/-- The final stable sort key order (`selected.sort(key=index.get)`). -/
def leIdx (n : List Msg) : Msg → Msg → Prop :=
  fun a b => lastIdxOf n a ≤ lastIdxOf n b

instance (n : List Msg) : DecidableRel (leIdx n) :=
  fun a b => Nat.decLe (lastIdxOf n a) (lastIdxOf n b)

instance (n : List Msg) : IsTotal Msg (leIdx n) :=
  ⟨fun a b => Nat.le_total (lastIdxOf n a) (lastIdxOf n b)⟩

instance (n : List Msg) : IsTrans Msg (leIdx n) :=
  ⟨fun _ _ _ => Nat.le_trans⟩

/-- The dedup key `(m["role"], m["content"][:900])`. -/
def dedupKey (m : Msg) : String × String :=
  (m.role, pyTake 900 m.content)

/-- The final dedup loop: keep the first message for each `(role, content[:900])`
key, in order. -/
def dedupeAux (seen : List (String × String)) : List Msg → List Msg
  | [] => []
  | m :: rest =>
    if dedupKey m ∈ seen then dedupeAux seen rest
    else m :: dedupeAux (dedupKey m :: seen) rest

/-- The descending stable sort of the scored candidates
(`candidates.sort(key=lambda x: x[1], reverse=True)`; Python `list.sort` is
stable, which is `List.insertionSort`). -/
def sortCandidates (cs : List (Msg × ℚ)) : List (Msg × ℚ) :=
  List.insertionSort (fun a b => b.2 ≤ a.2) cs

/-- Lines 236–296 of `prepare_context`, applied to a non-empty normalized
list: forced retention, scoring, packing under the budget, chronological
re-sort, and final dedup. -/
def assemble (cfg : MonitorContext) (n : List Msg) : List Msg :=
  let forced := forcedList cfg n
  let fio := forcedInOrderAux forced [] n
  let sorted := sortCandidates (candidatesOf cfg n)
  let st := addCandidates (addForced ⟨(cfg.max_context_tokens : Int), []⟩ fio) sorted
  dedupeAux [] (List.insertionSort (leIdx n) st.selected)

/-- The body of `prepare_context` once `messages` is known to be a list. -/
def prepareCore (cfg : MonitorContext) (msgs : List RawMsg) : List Msg :=
  let n := normalizeMsgs cfg msgs
  if n = [] then [] else assemble cfg n

/-- The argument of `prepare_context` (`Any` in the source): a string, a list
of message dicts, or anything else. -/
inductive PyInput where
  | str (s : String)
  | list (msgs : List RawMsg)
  | other

/-- The quick-reject test of `_try_parse_serialized_messages`:
`text.startswith("[") or text.startswith("(") or text.startswith("{")`. -/
def headIsOpenBracket (text : String) : Bool :=
  match text.data with
  | [] => false
  | c :: _ => c == '[' || c == '(' || c == '\x7b'

/-- `MonitorContext._try_parse_serialized_messages`.  The `json.loads` /
`ast.literal_eval` attempts (Python standard library) are abstracted as a
`loader` returning the recovered list when either parse yields a list, and
`none` otherwise; the quick-reject on the first character is explicit. -/
def tryParseSerialized (loader : String → Option (List RawMsg)) (s : String) :
    Option (List RawMsg) :=
  let text := pyStrip s
  if !headIsOpenBracket text then none
  else loader text

/-- `MonitorContext.prepare_context` (lines 196–296). -/
def prepare_context (loader : String → Option (List RawMsg)) (cfg : MonitorContext) :
    PyInput → List Msg
  | .str s =>
    match tryParseSerialized loader s with
    | some parsed => prepareCore cfg parsed
    | none => prepareCore cfg [⟨some "user", Content.str s⟩]
  | .list msgs => prepareCore cfg msgs
  | .other => []

/-! ### `src/utils/memory_utils.py` -/

/-- Python dict lookup `content[k]` on a string-valued dict (assoc list):
a missing key raises `KeyError`, modelled as `Except.error k`. -/
def dictGet (content : List (String × String)) (k : String) : Except String String :=
  match content.find? (fun p => p.1 == k) with
  | some p => Except.ok p.2
  | none => Except.error k

/-- Python `repr` of a string-valued dict, as produced by an f-string
`{content}` (modelled for values without quote characters). -/
def pyDictRepr (content : List (String × String)) : String :=
  "\x7b" ++
    String.intercalate ", "
      (content.map (fun p => "'" ++ p.1 ++ "': '" ++ p.2 ++ "'")) ++
  "\x7d"

/-- `should_store_memory`. -/
def should_store_memory (memory_type : String) (content : List (String × String)) : Bool :=
  if memory_type ∉ ["fact", "decision", "constraint"] then false
  else if content.isEmpty then false
  else if (content.find? (fun p => p.1 == "arguments")).isSome &&
      (content.find? (fun p => p.1 == "result")).isSome then false
  else true

/-- `normalize_memory`.  The separator in the `decision` branch is taken from
the source bytes: the file contains the three characters U+00E2 U+20AC U+201D
(`"â€”"`, a mojibake rendering of an em-dash), not an em-dash. -/
def normalize_memory (memory_type : String) (content : List (String × String)) :
    Except String String :=
  if memory_type = "fact" then dictGet content "fact"
  else if memory_type = "decision" then do
    let d ← dictGet content "decision"
    let r ← dictGet content "reason"
    return d ++ " â€” reason: " ++ r
  else if memory_type = "constraint" then dictGet content "constraint"
  else Except.ok (memory_type ++ ": " ++ pyDictRepr content)

/-! ### `src/agent.py`: result truncation -/

/-- `MAX_RESULT_CHARS`. -/
def MAX_RESULT_CHARS : Nat := 8000

/-- `MAX_MEMORY_CHARS`. -/
def MAX_MEMORY_CHARS : Nat := 4000

/-- `AGENT_ID`. -/
def AGENT_ID : String := "incident-agent-v1"

/-- The truncation marker appended by `truncate_result`. -/
def truncMarker (max_chars total_chars : Nat) : String :=
  "\n\n...[TRUNCATED: showing " ++ toString max_chars ++ "/" ++ toString total_chars ++
  " chars. Request specific portions if needed.]"

/-- `truncate_result` applied to the string rendering of its argument
(`result_str = str(result)`). -/
def truncate_result (result_str : String) (max_chars : Nat := MAX_RESULT_CHARS) : String :=
  if result_str.length ≤ max_chars then result_str
  else pyTake max_chars result_str ++ truncMarker max_chars result_str.length

/-- `truncate_memory`. -/
def truncate_memory (memory_str : String) (max_chars : Nat := MAX_MEMORY_CHARS) : String :=
  if memory_str.length ≤ max_chars then memory_str
  else pyTake max_chars memory_str ++
    ("\n...[MEMORY TRUNCATED: " ++ toString memory_str.length ++ " chars total]")

/-! ### `src/agent.py`: tool dispatch -/

/-- The five registered domains, in the order `dispatch_tool` checks them
(the github domain is commented out in the source). -/
inductive Domain where
  | incident
  | memory
  | code_index
  | editor
  | shell
deriving DecidableEq, Repr

/-- The discovered tool-name sets (`{t.name for t in ...}`), one per domain. -/
structure ToolSets where
  incident_tools : List String
  memory_tools : List String
  code_index_tools : List String
  editor_tools : List String
  shell_tools : List String

/-- The tools registered for a given domain. -/
def ToolSets.toolsOf (ts : ToolSets) : Domain → List String
  | .incident => ts.incident_tools
  | .memory => ts.memory_tools
  | .code_index => ts.code_index_tools
  | .editor => ts.editor_tools
  | .shell => ts.shell_tools

/-- The `memory_type` argument `dispatch_tool` passes to `safe_call` for each
domain (`"incident"` for the incident domain, `None` elsewhere). -/
def domainMemType : Domain → Option String
  | .incident => some "incident"
  | _ => none

/-- A raised Python exception: its type name and message
(`type(e).__name__` and `str(e)`). -/
structure PyExn where
  typeName : String
  msg : String
deriving DecidableEq, Repr

/-- The `result` component of the dispatch triple: the backend's result on
success, or the human-readable error message string on failure. -/
inductive DispatchResult (ρ : Type) where
  | ok (r : ρ)
  | err (msg : String)
deriving DecidableEq, Repr

/-- The error message built by `safe_call` for a raised exception. -/
def safeCallErrMsg (tool_name : String) (e : PyExn) : String :=
  "Tool '" ++ tool_name ++ "' failed with error: " ++ e.typeName ++ ": " ++ e.msg

/-- `safe_call`: call the backend, catching any exception and returning it as
an error triple `(error_msg, None, True)`; on success return
`(result, memory_type, False)`. -/
def safe_call {α ρ : Type} (call : String → α → Except PyExn ρ)
    (tool_name : String) (args : α) (memory_type : Option String) :
    DispatchResult ρ × Option String × Bool :=
  match call tool_name args with
  | .ok r => (.ok r, memory_type, false)
  | .error e => (.err (safeCallErrMsg tool_name e), none, true)

/-- The `Unknown tool` error message (line 164). -/
def unknownToolMsg (name : String) : String :=
  "Unknown tool: " ++ name ++
  ". Available tools are in incident, memory, code_index, editor, shell domains."

/-- The domain `dispatch_tool` routes `name` to: the first domain (in source
order) whose tool set contains `name`, if any. -/
def routedDomain (ts : ToolSets) (name : String) : Option Domain :=
  if name ∈ ts.incident_tools then some .incident
  else if name ∈ ts.memory_tools then some .memory
  else if name ∈ ts.code_index_tools then some .code_index
  else if name ∈ ts.editor_tools then some .editor
  else if name ∈ ts.shell_tools then some .shell
  else none

/-- `dispatch_tool`: route by the first matching domain's tool set, calling
through `safe_call`; an unregistered name yields the `Unknown tool` error
triple.  The per-domain clients are modelled as `clients : Domain → ...`. -/
def dispatch_tool {α ρ : Type} (clients : Domain → String → α → Except PyExn ρ)
    (ts : ToolSets) (name : String) (args : α) :
    DispatchResult ρ × Option String × Bool :=
  if name ∈ ts.incident_tools then
    safe_call (clients .incident) name args (some "incident")
  else if name ∈ ts.memory_tools then
    safe_call (clients .memory) name args none
  else if name ∈ ts.code_index_tools then
    safe_call (clients .code_index) name args none
  else if name ∈ ts.editor_tools then
    safe_call (clients .editor) name args none
  else if name ∈ ts.shell_tools then
    safe_call (clients .shell) name args none
  else
    (.err (unknownToolMsg name), none, true)

/-! ### `src/agent.py`: the per-tool-call step of the agent loop -/

/-- A `write_memory` call's payload (lines 367–378): `agent_id`,
`memory_type`, and the content dict `{tool, arguments, result}`. -/
structure MemoryRecord (α ρ : Type) where
  agent_id : String
  memory_type : String
  tool : String
  arguments : α
  result : DispatchResult ρ
deriving Repr

/-- A `tool_result` block appended to the conversation (lines 391–398). -/
structure ToolResultBlock where
  tool_use_id : String
  content : String
  is_error : Bool
deriving DecidableEq, Repr

/-- The body of the `for tool_block in tool_uses` loop (lines 343–399) for one
`ToolCall`: dispatch, conditionally write one memory record (only when a
memory classification is present — Python truthiness, so a non-empty string —
and the call did not error), and build the truncated result block.
`render` models Python `str()` on the backend's result object. -/
def processToolCall {α ρ : Type} (clients : Domain → String → α → Except PyExn ρ)
    (ts : ToolSets) (render : ρ → String)
    (tool_name : String) (tool_args : α) (tool_use_id : String) :
    List (MemoryRecord α ρ) × ToolResultBlock :=
  let out := dispatch_tool clients ts tool_name tool_args
  let result := out.1
  let memory_type := out.2.1
  let is_error := out.2.2
  let writes :=
    match memory_type with
    | some mt => if mt ≠ "" ∧ ¬is_error then [⟨AGENT_ID, mt, tool_name, tool_args, result⟩] else []
    | none => []
  let rendered := match result with | .ok r => render r | .err m => m
  (writes, ⟨tool_use_id, truncate_result rendered, is_error⟩)

/-! ### Helper lemmas -/

/-- The error message produced by `safe_call` for an exception is never the
`Unknown tool` routing message (they start with different characters). -/
theorem safeCallErrMsg_ne_unknown (n m : String) (e : PyExn) :
    safeCallErrMsg n e ≠ unknownToolMsg m := by
  intro h
  have h2 : (safeCallErrMsg n e).data.head? = (unknownToolMsg m).data.head? := by rw [h]
  rw [safeCallErrMsg, unknownToolMsg] at h2
  rw [String.append_assoc, String.append_assoc, String.append_assoc,
    String.append_assoc] at h2
  rw [String.data_append, String.data_append] at h2
  have h3 : some 'T' = some 'U' := h2
  simp at h3

/-- The score is a clamped value, hence never negative. -/
theorem scoreOf_nonneg (dl : Bool) (role text : String) : 0 ≤ scoreOf dl role text := by
  simp only [scoreOf]
  exact le_max_left 0 _

/-! ### Claim theorems -/

/-- C5: for every role in `{user, assistant, system}` and every text, the
scorer (with its default `drop_logs=True` configuration) returns
`max(0, base + bonuses - penalty)`, where the base is 1.0 / 0.4 / 0.6 for
user / assistant / system, +0.5 is added for decision/requirement vocabulary,
+0.25 for a date or incident-id pattern, and 0.6 is subtracted for raw-log
text; the result is never negative.  (Determinism is immediate: `scoreOf` is
a pure function of `(drop_logs, role, text)`.) -/
theorem c5_score_formula (dl : Bool) (role text : String)
    (hdl : dl = true)
    (hrole : role = "user" ∨ role = "assistant" ∨ role = "system") :
    scoreOf dl role text =
      max 0
        ((if role = "user" then (1 : ℚ) else if role = "system" then 0.6 else 0.4) +
          (if hasDecisionWord text then 0.5 else 0) +
          (if hasDateOrInc text then 0.25 else 0) -
          (if isLogText text then 0.6 else 0)) ∧
    0 ≤ scoreOf dl role text := by
  subst hdl
  refine ⟨?_, scoreOf_nonneg true role text⟩
  rcases hrole with h | h | h <;> subst h <;>
    simp only [scoreOf] <;>
    split_ifs <;> first | (norm_num; done) | simp_all

/-- C5 witness: the formula at a concrete input. -/
theorem c5_score_formula_witness :
    scoreOf true "user" "we must fix INC-42" =
      max 0
        ((if ("user" : String) = "user" then (1 : ℚ)
            else if ("user" : String) = "system" then 0.6 else 0.4) +
          (if hasDecisionWord "we must fix INC-42" then 0.5 else 0) +
          (if hasDateOrInc "we must fix INC-42" then 0.25 else 0) -
          (if isLogText "we must fix INC-42" then 0.6 else 0)) ∧
    0 ≤ scoreOf true "user" "we must fix INC-42" :=
  c5_score_formula true "user" "we must fix INC-42" rfl (Or.inl rfl)

/-- C6 (code bug): the `decision` branch of `normalize_memory` renders with
the literal mojibake separator `" â€” reason: "` (U+00E2 U+20AC U+201D) found
in the source bytes, so on the spec's own example it does *not* return the
claimed em-dash string `"redact passwords — reason: PII exposure"`. -/
theorem c6_decision_mojibake :
    normalize_memory "decision"
        [("decision", "redact passwords"), ("reason", "PII exposure")] =
      Except.ok "redact passwords â€” reason: PII exposure" ∧
    ("redact passwords â€” reason: PII exposure" : String) ≠
      "redact passwords — reason: PII exposure" :=
  ⟨rfl, by decide⟩

/-- C7: `truncate_result` returns its input unchanged when it fits in
`max_chars`, and otherwise returns exactly the first `max_chars` characters
followed by one truncation marker stating the original total size. -/
theorem c7_truncate_result (s : String) (mc : Nat) :
    (s.length ≤ mc → truncate_result s mc = s) ∧
    (mc < s.length →
      truncate_result s mc = pyTake mc s ++ truncMarker mc s.length ∧
      (pyTake mc s).length = mc) := by
  constructor
  · intro h
    rw [truncate_result, if_pos h]
  · intro h
    refine ⟨?_, ?_⟩
    · rw [truncate_result, if_neg (not_le.mpr h)]
    · show (pyTake mc s).data.length = mc
      rw [pyTake]
      simpa using Nat.le_of_lt h

/-- C7 witness: a 10-character result truncated to 4 characters, plus an
untouched short result. -/
theorem c7_truncate_result_witness :
    (("abc" : String).length ≤ 8000 ∧ truncate_result "abc" 8000 = "abc") ∧
    (4 < ("abcdefghij" : String).length ∧
      truncate_result "abcdefghij" 4 =
        pyTake 4 "abcdefghij" ++ truncMarker 4 ("abcdefghij" : String).length ∧
      (pyTake 4 ("abcdefghij" : String)).length = 4) :=
  ⟨⟨by decide, (c7_truncate_result "abc" 8000).1 (by decide)⟩,
   ⟨by decide, (c7_truncate_result "abcdefghij" 4).2 (by decide)⟩⟩

/-- C8: tool dispatch is total and never raises: a name registered in some
domain's tool set is routed to the first matching domain and answered by
`safe_call` on that domain (a backend exception becomes a human-readable
error triple with `is_error = true` and is never the `Unknown tool` result),
while a name registered nowhere yields the `Unknown tool` error triple with
`is_error = true`. -/
theorem c8_dispatch_total {α ρ : Type} (clients : Domain → String → α → Except PyExn ρ)
    (ts : ToolSets) (name : String) (args : α) :
    ((name ∈ ts.incident_tools ∨ name ∈ ts.memory_tools ∨ name ∈ ts.code_index_tools ∨
        name ∈ ts.editor_tools ∨ name ∈ ts.shell_tools) →
      ∃ d, routedDomain ts name = some d) ∧
    (∀ d, routedDomain ts name = some d →
      dispatch_tool clients ts name args = safe_call (clients d) name args (domainMemType d) ∧
      dispatch_tool clients ts name args ≠ (.err (unknownToolMsg name), none, true) ∧
      ∀ e, clients d name args = .error e →
        dispatch_tool clients ts name args = (.err (safeCallErrMsg name e), none, true)) ∧
    (routedDomain ts name = none →
      dispatch_tool clients ts name args = (.err (unknownToolMsg name), none, true)) := by
  refine ⟨?_, ?_, ?_⟩
  · intro hmem
    rw [routedDomain]
    split_ifs <;> first
      | exact ⟨_, rfl⟩
      | (exfalso; tauto)
  · intro d hd
    rw [routedDomain] at hd
    have hmain :
        dispatch_tool clients ts name args =
          safe_call (clients d) name args (domainMemType d) := by
      rw [dispatch_tool]
      split_ifs at hd ⊢ <;> injection hd with hd <;> subst hd <;> rfl
    refine ⟨hmain, ?_, ?_⟩
    · rw [hmain, safe_call]
      cases hc : clients d name args with
      | ok r => simp
      | error e =>
        intro h1
        have h2 : (DispatchResult.err (safeCallErrMsg name e) : DispatchResult ρ) =
            .err (unknownToolMsg name) := congrArg Prod.fst h1
        exact safeCallErrMsg_ne_unknown name name e (DispatchResult.err.inj h2)
    · intro e he
      rw [hmain, safe_call, he]
  · intro hd
    rw [routedDomain] at hd
    rw [dispatch_tool]
    split_ifs at hd ⊢
    simp_all

/-- C8 witness: a registered name routed to the editor domain (whose backend
raises a timeout) and an unregistered name, with the routing hypotheses
discharged by computation. -/
theorem c8_dispatch_total_witness :
    (dispatch_tool
        (fun _ _ _ => Except.error ⟨"Timeout", "slow"⟩ :
          Domain → String → Nat → Except PyExn Nat)
        ⟨["a"], [], [], ["edit_file"], []⟩ "edit_file" 0 =
      safe_call
        ((fun _ _ _ => Except.error ⟨"Timeout", "slow"⟩ :
          Domain → String → Nat → Except PyExn Nat) Domain.editor)
        "edit_file" 0 (domainMemType Domain.editor) ∧
      dispatch_tool
          (fun _ _ _ => Except.error ⟨"Timeout", "slow"⟩ :
            Domain → String → Nat → Except PyExn Nat)
          ⟨["a"], [], [], ["edit_file"], []⟩ "edit_file" 0 ≠
        (.err (unknownToolMsg "edit_file"), none, true) ∧
      ∀ e, (fun _ _ _ => Except.error ⟨"Timeout", "slow"⟩ :
            Domain → String → Nat → Except PyExn Nat) Domain.editor "edit_file" 0 =
          .error e →
        dispatch_tool
            (fun _ _ _ => Except.error ⟨"Timeout", "slow"⟩ :
              Domain → String → Nat → Except PyExn Nat)
            ⟨["a"], [], [], ["edit_file"], []⟩ "edit_file" 0 =
          (.err (safeCallErrMsg "edit_file" e), none, true)) ∧
    dispatch_tool
        (fun _ _ _ => Except.error ⟨"Timeout", "slow"⟩ :
          Domain → String → Nat → Except PyExn Nat)
        ⟨["a"], [], [], ["edit_file"], []⟩ "nope" 0 =
      (.err (unknownToolMsg "nope"), none, true) :=
  ⟨(c8_dispatch_total _ ⟨["a"], [], [], ["edit_file"], []⟩ "edit_file" 0).2.1
      Domain.editor (by decide),
   (c8_dispatch_total _ ⟨["a"], [], [], ["edit_file"], []⟩ "nope" 0).2.2 (by decide)⟩

/-- C9: at most one memory record is written per processed tool call, and a
call routed to the memory domain itself never produces one (its memory
classification is always `None`). -/
theorem c9_memory_writes {α ρ : Type} (clients : Domain → String → α → Except PyExn ρ)
    (ts : ToolSets) (render : ρ → String) (name : String) (args : α) (tid : String) :
    (processToolCall clients ts render name args tid).1.length ≤ 1 ∧
    (routedDomain ts name = some Domain.memory →
      (dispatch_tool clients ts name args).2.1 = none ∧
      (processToolCall clients ts render name args tid).1 = []) := by
  constructor
  · rw [processToolCall]
    rcases h : (dispatch_tool clients ts name args).2.1 with _ | mt
    · simp [h]
    · simp only [h]
      split_ifs <;> simp
  · intro hd
    rw [routedDomain] at hd
    have hnone : (dispatch_tool clients ts name args).2.1 = none := by
      rw [dispatch_tool]
      split_ifs at hd ⊢ <;> first
        | (rw [safe_call]; cases clients Domain.memory name args <;> rfl)
        | simp at hd
    refine ⟨hnone, ?_⟩
    rw [processToolCall, hnone]

/-- C9 witness: a concrete memory-domain call writes nothing. -/
theorem c9_memory_writes_witness :
    (processToolCall (fun _ _ _ => Except.ok 7 : Domain → String → Nat → Except PyExn Nat)
        ⟨[], ["write_memory"], [], [], []⟩ toString "write_memory" 3 "id1").1.length ≤ 1 ∧
    ((dispatch_tool (fun _ _ _ => Except.ok 7 : Domain → String → Nat → Except PyExn Nat)
        ⟨[], ["write_memory"], [], [], []⟩ "write_memory" 3).2.1 = none ∧
      (processToolCall (fun _ _ _ => Except.ok 7 : Domain → String → Nat → Except PyExn Nat)
        ⟨[], ["write_memory"], [], [], []⟩ toString "write_memory" 3 "id1").1 = []) :=
  ⟨(c9_memory_writes _ _ _ _ _ _).1,
   (c9_memory_writes _ _ _ _ _ _).2 (by decide)⟩

/-- C10: an input that is neither a string nor a list yields `[]` rather
than an exception, and a bare string that does not parse as a serialized
message list is treated as a single user-role message with that content. -/
theorem c10_input_recovery (loader : String → Option (List RawMsg))
    (cfg : MonitorContext) :
    prepare_context loader cfg .other = [] ∧
    (∀ s, tryParseSerialized loader s = none →
      prepare_context loader cfg (.str s) =
        prepare_context loader cfg (.list [⟨some "user", Content.str s⟩])) := by
  refine ⟨rfl, ?_⟩
  intro s h
  simp only [prepare_context, h]

/-- C10 witness: a plain greeting string with a parser that recovers
nothing. -/
theorem c10_input_recovery_witness :
    prepare_context (fun _ => none) {} .other = [] ∧
    (tryParseSerialized (fun _ => none) "hi there" = none ∧
      prepare_context (fun _ => none) {} (.str "hi there") =
        prepare_context (fun _ => none) {} (.list [⟨some "user", Content.str "hi there"⟩])) :=
  ⟨(c10_input_recovery (fun _ => none) {}).1,
   by decide,
   (c10_input_recovery (fun _ => none) {}).2 "hi there" (by decide)⟩

/-! ### Packing-state lemmas -/

/-- Total estimated token cost of a message list. -/
def msgCosts (l : List Msg) : Nat :=
  (l.map (fun m => estimate_tokens m.content)).sum

theorem msgCosts_nil : msgCosts [] = 0 := rfl

theorem msgCosts_cons (m : Msg) (l : List Msg) :
    msgCosts (m :: l) = estimate_tokens m.content + msgCosts l := by
  simp [msgCosts]

theorem msgCosts_append (l₁ l₂ : List Msg) :
    msgCosts (l₁ ++ l₂) = msgCosts l₁ + msgCosts l₂ := by
  simp [msgCosts]

theorem msgCosts_sublist_le {l₁ l₂ : List Msg} (h : l₁.Sublist l₂) :
    msgCosts l₁ ≤ msgCosts l₂ := by
  induction h with
  | slnil => exact Nat.le_refl 0
  | cons m h ih => rw [msgCosts_cons]; omega
  | cons₂ m h ih => rw [msgCosts_cons, msgCosts_cons]; omega

theorem msgCosts_perm {l₁ l₂ : List Msg} (h : l₁.Perm l₂) :
    msgCosts l₁ = msgCosts l₂ :=
  (h.map _).sum_eq

theorem msgCosts_filter_partition (p : Msg → Bool) (l : List Msg) :
    msgCosts (l.filter p) + msgCosts (l.filter (fun m => !p m)) = msgCosts l := by
  induction l with
  | nil => rfl
  | cons a t ih =>
    by_cases h : p a <;>
      simp [List.filter_cons, h, msgCosts_cons, ← ih] <;> omega

/-- Sum of costs over a duplicate-free list of members is at most the sum
over the containing list. -/
theorem msgCosts_le_of_nodup_subset {l' l : List Msg} (hnd : l'.Nodup)
    (hsub : ∀ x ∈ l', x ∈ l) : msgCosts l' ≤ msgCosts l := by
  induction l' generalizing l with
  | nil => exact Nat.zero_le _
  | cons a t ih =>
    have ha : a ∈ l := hsub a (List.mem_cons_self a t)
    have hperm : l.Perm (a :: l.erase a) := List.perm_cons_erase ha
    rw [msgCosts_perm hperm, msgCosts_cons, msgCosts_cons]
    have hnd' := (List.nodup_cons.mp hnd)
    refine Nat.add_le_add_left (ih hnd'.2 ?_) _
    intro x hx
    refine (List.mem_erase_of_ne (fun he => ?_)).mpr (hsub x (List.mem_cons_of_mem a hx))
    rw [he] at hx
    exact hnd'.1 hx

theorem tryAdd_budget_nonneg (st : PackState) (m : Msg) (h : 0 ≤ st.budget) :
    0 ≤ ((tryAdd st m).1).budget := by
  rw [tryAdd]
  split_ifs with hc
  · exact h
  · simpa using le_of_not_lt hc

theorem tryAdd_skip (st : PackState) (m : Msg)
    (h : st.budget - (estimate_tokens m.content : Int) < 0) :
    tryAdd st m = (st, false) := by
  rw [tryAdd, if_pos h]

theorem tryAdd_fit (st : PackState) (m : Msg)
    (h : (estimate_tokens m.content : Int) ≤ st.budget) :
    tryAdd st m =
      ({ budget := st.budget - (estimate_tokens m.content : Int),
          selected := st.selected ++ [m] }, true) := by
  rw [tryAdd, if_neg (by omega)]

theorem tryAdd_invariant (st : PackState) (m : Msg) :
    ((tryAdd st m).1).budget + (msgCosts ((tryAdd st m).1).selected : Int) =
      st.budget + (msgCosts st.selected : Int) := by
  rw [tryAdd]
  split_ifs
  · rfl
  · simp only [msgCosts_append, msgCosts_cons, msgCosts_nil]
    push_cast
    ring

theorem tryAdd_selected (st : PackState) (m : Msg) :
    ∃ t, ((tryAdd st m).1).selected = st.selected ++ t ∧ t.Sublist [m] := by
  rw [tryAdd]
  split_ifs
  · exact ⟨[], by simp⟩
  · exact ⟨[m], rfl, List.Sublist.refl _⟩

theorem addForced_budget_nonneg (ms : List Msg) (st : PackState) (h : 0 ≤ st.budget) :
    0 ≤ (addForced st ms).budget := by
  induction ms generalizing st with
  | nil => exact h
  | cons m t ih => exact ih _ (tryAdd_budget_nonneg st m h)

theorem addForced_invariant (ms : List Msg) (st : PackState) :
    (addForced st ms).budget + (msgCosts (addForced st ms).selected : Int) =
      st.budget + (msgCosts st.selected : Int) := by
  induction ms generalizing st with
  | nil => rfl
  | cons m t ih =>
    rw [addForced, List.foldl_cons, ← addForced]
    rw [ih ((tryAdd st m).1)]
    exact tryAdd_invariant st m

theorem addForced_selected (ms : List Msg) (st : PackState) :
    ∃ t, (addForced st ms).selected = st.selected ++ t ∧ t.Sublist ms := by
  induction ms generalizing st with
  | nil => exact ⟨[], by simp [addForced]⟩
  | cons m ms ih =>
    obtain ⟨t₁, ht₁, hs₁⟩ := tryAdd_selected st m
    obtain ⟨t₂, ht₂, hs₂⟩ := ih ((tryAdd st m).1)
    refine ⟨t₁ ++ t₂, ?_, ?_⟩
    · rw [addForced, List.foldl_cons, ← addForced, ht₂, ht₁, List.append_assoc]
    · exact (hs₁.append_right t₂).trans (hs₂.append_left [m])

theorem addForced_all_fit (ms : List Msg) (st : PackState)
    (h : (msgCosts ms : Int) ≤ st.budget) :
    addForced st ms =
      ⟨st.budget - (msgCosts ms : Int), st.selected ++ ms⟩ := by
  induction ms generalizing st with
  | nil => cases st; simp [addForced, msgCosts_nil]
  | cons m t ih =>
    rw [msgCosts_cons] at h
    push_cast at h
    have ht : (0 : Int) ≤ (msgCosts t : Int) := Int.natCast_nonneg _
    have hm : (estimate_tokens m.content : Int) ≤ st.budget := by omega
    rw [addForced, List.foldl_cons, ← addForced, tryAdd_fit st m hm]
    rw [ih ⟨st.budget - (estimate_tokens m.content : Int), st.selected ++ [m]⟩
      (by dsimp only; omega)]
    simp only [PackState.mk.injEq]
    constructor
    · dsimp only
      rw [msgCosts_cons]
      push_cast
      ring
    · dsimp only
      rw [List.append_assoc]
      rfl

/-- The candidate loop is the forced loop on the positive-score candidates. -/
theorem addCandidates_eq (cs : List (Msg × ℚ)) (st : PackState) :
    addCandidates st cs =
      addForced st ((cs.filter (fun p => decide (0 < p.2))).map Prod.fst) := by
  induction cs generalizing st with
  | nil => rfl
  | cons p t ih =>
    rw [addCandidates, List.foldl_cons, ← addCandidates]
    by_cases h : p.2 ≤ 0
    · rw [if_pos h, ih, List.filter_cons, if_neg (by simpa using h)]
    · rw [if_neg h, ih, List.filter_cons, if_pos (by simpa using lt_of_not_le h),
        List.map_cons]
      rfl

/-! ### `forced_in_order` lemmas -/

theorem forcedInOrderAux_mem_of (f acc l : List Msg) :
    ∀ x ∈ forcedInOrderAux f acc l, x ∈ acc ∨ x ∈ l := by
  induction l generalizing acc with
  | nil => intro x hx; exact Or.inl hx
  | cons a t ih =>
    intro x hx
    rw [forcedInOrderAux] at hx
    split_ifs at hx
    · rcases ih (acc ++ [a]) x hx with h | h
      · rcases List.mem_append.mp h with h | h
        · exact Or.inl h
        · simp only [List.mem_singleton] at h
          exact Or.inr (h ▸ List.mem_cons_self a t)
      · exact Or.inr (List.mem_cons_of_mem a h)
    · rcases ih acc x hx with h | h
      · exact Or.inl h
      · exact Or.inr (List.mem_cons_of_mem a h)

theorem forcedInOrderAux_mem_forced (f acc l : List Msg) :
    ∀ x ∈ forcedInOrderAux f acc l, x ∈ acc ∨ x ∈ f := by
  induction l generalizing acc with
  | nil => intro x hx; exact Or.inl hx
  | cons a t ih =>
    intro x hx
    rw [forcedInOrderAux] at hx
    split_ifs at hx with hc
    · rcases ih (acc ++ [a]) x hx with h | h
      · rcases List.mem_append.mp h with h | h
        · exact Or.inl h
        · simp only [List.mem_singleton] at h
          exact Or.inr (h ▸ hc.1)
      · exact Or.inr h
    · exact ih acc x hx

theorem forcedInOrderAux_mem (f acc l : List Msg) (m : Msg) (hf : m ∈ f)
    (h : m ∈ acc ∨ m ∈ l) : m ∈ forcedInOrderAux f acc l := by
  induction l generalizing acc with
  | nil =>
    rcases h with h | h
    · exact h
    · cases h
  | cons a t ih =>
    rw [forcedInOrderAux]
    split_ifs with hc
    · rcases h with h | h
      · exact ih _ (Or.inl (List.mem_append_left _ h))
      · rcases List.mem_cons.mp h with h | h
        · exact ih _ (Or.inl (List.mem_append_right _ (by simp [h])))
        · exact ih _ (Or.inr h)
    · rcases h with h | h
      · exact ih _ (Or.inl h)
      · rcases List.mem_cons.mp h with h | h
        · subst h
          have : m ∈ acc := by
            by_contra hna
            exact hc ⟨hf, hna⟩
          exact ih _ (Or.inl this)
        · exact ih _ (Or.inr h)

theorem forcedInOrderAux_nodup (f acc l : List Msg) (hacc : acc.Nodup) :
    (forcedInOrderAux f acc l).Nodup := by
  induction l generalizing acc with
  | nil => exact hacc
  | cons a t ih =>
    rw [forcedInOrderAux]
    split_ifs with hc
    · exact ih _ (by simp [List.nodup_append, hacc, hc.2])
    · exact ih _ hacc

theorem forcedInOrderAux_eq_filter (f : List Msg) :
    ∀ (l acc : List Msg), l.Nodup → (∀ x ∈ l, x ∉ acc) →
      forcedInOrderAux f acc l = acc ++ l.filter (fun m => decide (m ∈ f)) := by
  intro l
  induction l with
  | nil => intro acc _ _; simp [forcedInOrderAux]
  | cons a t ih =>
    intro acc hnd hdisj
    have hat : a ∉ t := (List.nodup_cons.mp hnd).1
    have hna : a ∉ acc := hdisj a (List.mem_cons_self a t)
    rw [forcedInOrderAux, List.filter_cons]
    split_ifs with hc hdec hdec
    · rw [ih (acc ++ [a]) (List.nodup_cons.mp hnd).2 ?_]
      · simp
      · intro x hx hmem
        rcases List.mem_append.mp hmem with h | h
        · exact hdisj x (List.mem_cons_of_mem a hx) h
        · simp only [List.mem_singleton] at h
          rw [h] at hx
          exact hat hx
    · exact absurd hc.1 (by simpa using hdec)
    · exact absurd ⟨by simpa using hdec, hna⟩ hc
    · exact ih acc (List.nodup_cons.mp hnd).2
        (fun x hx => hdisj x (List.mem_cons_of_mem a hx))

/-! ### Pairwise and index helpers -/

theorem pairwise_imp_mem {α : Type} {R S : α → α → Prop} {l : List α}
    (h : l.Pairwise R) (himp : ∀ a b, a ∈ l → b ∈ l → R a b → S a b) :
    l.Pairwise S := by
  rw [List.pairwise_iff_forall_sublist] at h ⊢
  intro a b hs
  exact himp a b (hs.subset (by simp)) (hs.subset (by simp)) (h hs)

theorem lastIdxOf_getElem {m : Msg} : ∀ {l : List Msg}, m ∈ l →
    l[lastIdxOf l m]? = some m := by
  intro l
  induction l with
  | nil => intro h; cases h
  | cons a t ih =>
    intro hm
    rw [lastIdxOf]
    by_cases ht : m ∈ t
    · rw [if_pos ht]
      simpa using ih ht
    · have ham : a = m := by
        rcases List.mem_cons.mp hm with h | h
        · exact h.symm
        · exact absurd h ht
      rw [if_neg ht, if_pos ham]
      simp [ham]

theorem lastIdxOf_lt_length {m : Msg} {l : List Msg} (hm : m ∈ l) :
    lastIdxOf l m < l.length :=
  (List.getElem?_eq_some_iff.mp (lastIdxOf_getElem hm)).1

theorem lastIdxOf_ge (m : Msg) : ∀ (t s : List Msg),
    t.length ≤ lastIdxOf (t ++ m :: s) m := by
  intro t
  induction t with
  | nil => intro s; exact Nat.zero_le _
  | cons a t ih =>
    intro s
    rw [List.cons_append, lastIdxOf,
      if_pos (List.mem_append_right t (List.mem_cons_self m s))]
    exact Nat.succ_le_succ (ih s)

theorem lastIdxOf_nodup (m : Msg) : ∀ (t s : List Msg),
    (t ++ m :: s).Nodup → lastIdxOf (t ++ m :: s) m = t.length := by
  intro t
  induction t with
  | nil =>
    intro s hnd
    have hms : m ∉ s := (List.nodup_cons.mp hnd).1
    rw [List.nil_append, lastIdxOf, if_neg hms, if_pos rfl]
    rfl
  | cons a t ih =>
    intro s hnd
    rw [List.cons_append, lastIdxOf,
      if_pos (List.mem_append_right t (List.mem_cons_self m s))]
    rw [ih s (List.nodup_cons.mp hnd).2]
    rfl

theorem drop_lastIdxOf_suffix (m : Msg) (t s : List Msg) :
    ((t ++ m :: s).drop (lastIdxOf (t ++ m :: s) m + 1)).IsSuffix s := by
  have h1 : t.length ≤ lastIdxOf (t ++ m :: s) m := lastIdxOf_ge m t s
  have h2 : t ++ m :: s = (t ++ [m]) ++ s := by simp
  have h3 : lastIdxOf (t ++ m :: s) m + 1 =
      (t ++ [m]).length + (lastIdxOf (t ++ m :: s) m - t.length) := by
    simp only [List.length_append, List.length_singleton]
    omega
  rw [h3, h2, List.drop_append]
  exact List.drop_suffix _ s

/-- `Nodup` lists are strictly increasing in their own last-occurrence
index map. -/
theorem nodup_pairwise_lastIdx : ∀ {l : List Msg}, l.Nodup →
    l.Pairwise (fun a b => lastIdxOf l a < lastIdxOf l b) := by
  intro l
  induction l with
  | nil => intro _; exact List.Pairwise.nil
  | cons a t ih =>
    intro hnd
    have hat : a ∉ t := (List.nodup_cons.mp hnd).1
    refine List.pairwise_cons.mpr ⟨?_, ?_⟩
    · intro b hb
      rw [lastIdxOf, if_neg hat, if_pos rfl, lastIdxOf, if_pos hb]
      exact Nat.succ_pos _
    · refine pairwise_imp_mem (ih (List.nodup_cons.mp hnd).2) ?_
      intro x y hx hy hlt
      rw [lastIdxOf, if_pos hx, lastIdxOf, if_pos hy]
      omega

/-- A list whose elements sit at strictly increasing positions of `l` is a
sublist of `l`. -/
theorem sublist_of_index_strict {α : Type} :
    ∀ (out : List α) (f : α → Nat) (l : List α),
      (∀ a ∈ out, l[f a]? = some a) →
      out.Pairwise (fun a b => f a < f b) →
      out.Sublist l := by
  intro out
  induction out with
  | nil => intro f l _ _; exact List.nil_sublist l
  | cons a t ih =>
    intro f l hget hpw
    have ha : l[f a]? = some a := hget a (List.mem_cons_self a t)
    obtain ⟨hfa, heq⟩ := List.getElem?_eq_some_iff.mp ha
    have hcons := List.pairwise_cons.mp hpw
    have hdecomp : l = l.take (f a) ++ a :: l.drop (f a + 1) := by
      conv_lhs => rw [← List.take_append_drop (f a) l]
      rw [List.drop_eq_getElem_cons hfa, heq]
    have htail : t.Sublist (l.drop (f a + 1)) := by
      refine ih (fun b => f b - (f a + 1)) (l.drop (f a + 1)) ?_ ?_
      · intro b hb
        have hab : f a < f b := hcons.1 b hb
        rw [List.getElem?_drop]
        rw [show f a + 1 + (f b - (f a + 1)) = f b by omega]
        exact hget b (List.mem_cons_of_mem a hb)
      · refine pairwise_imp_mem hcons.2 ?_
        intro x y hx hy hlt
        have hax : f a < f x := hcons.1 x hx
        dsimp only
        omega
    rw [hdecomp]
    exact List.sublist_append_of_sublist_right ((htail.cons₂ a))

/-! ### Dedup-loop lemmas -/

theorem dedupeAux_sublist : ∀ (seen : List (String × String)) (l : List Msg),
    (dedupeAux seen l).Sublist l := by
  intro seen l
  induction l generalizing seen with
  | nil => exact List.Sublist.refl []
  | cons a t ih =>
    rw [dedupeAux]
    split_ifs
    · exact (ih seen).trans (List.sublist_cons_self a t)
    · exact (ih (dedupKey a :: seen)).cons₂ a

theorem dedupeAux_keys : ∀ (seen : List (String × String)) (l : List Msg),
    (dedupeAux seen l).Pairwise (fun a b => dedupKey a ≠ dedupKey b) ∧
    ∀ x ∈ dedupeAux seen l, dedupKey x ∉ seen := by
  intro seen l
  induction l generalizing seen with
  | nil => exact ⟨List.Pairwise.nil, by intro x hx; cases hx⟩
  | cons a t ih =>
    rw [dedupeAux]
    split_ifs with hs
    · exact ih seen
    · obtain ⟨ihp, ihm⟩ := ih (dedupKey a :: seen)
      constructor
      · refine List.pairwise_cons.mpr ⟨?_, ihp⟩
        intro b hb hab
        exact ihm b hb (hab ▸ List.mem_cons_self _ _)
      · intro x hx
        rcases List.mem_cons.mp hx with h | h
        · rw [h]; exact hs
        · intro hxs
          exact ihm x h (List.mem_cons_of_mem _ hxs)

theorem dedupeAux_mem_key : ∀ (seen : List (String × String)) (l : List Msg)
    (x : Msg), x ∈ l → dedupKey x ∉ seen →
    ∃ y ∈ dedupeAux seen l, dedupKey y = dedupKey x := by
  intro seen l
  induction l generalizing seen with
  | nil => intro x hx; cases hx
  | cons a t ih =>
    intro x hx hk
    rw [dedupeAux]
    split_ifs with hs
    · rcases List.mem_cons.mp hx with h | h
      · exact absurd (h ▸ hs) hk
      · exact ih seen x h hk
    · by_cases hxa : dedupKey x = dedupKey a
      · exact ⟨a, List.mem_cons_self _ _, hxa.symm⟩
      · rcases List.mem_cons.mp hx with h | h
        · exact absurd (congrArg dedupKey h) hxa
        · have hk2 : dedupKey x ∉ dedupKey a :: seen := by
            intro hmem
            rcases List.mem_cons.mp hmem with h2 | h2
            · exact hxa h2
            · exact hk h2
          obtain ⟨y, hy, hky⟩ := ih (dedupKey a :: seen) x h hk2
          exact ⟨y, List.mem_cons_of_mem a hy, hky⟩

theorem dedupeAux_eq_self : ∀ (seen : List (String × String)) (l : List Msg),
    l.Pairwise (fun a b => dedupKey a ≠ dedupKey b) →
    (∀ x ∈ l, dedupKey x ∉ seen) →
    dedupeAux seen l = l := by
  intro seen l
  induction l generalizing seen with
  | nil => intro _ _; rfl
  | cons a t ih =>
    intro hpw hseen
    rw [dedupeAux, if_neg (hseen a (List.mem_cons_self a t))]
    rw [ih (dedupKey a :: seen) (List.pairwise_cons.mp hpw).2 ?_]
    intro x hx
    intro hmem
    rcases List.mem_cons.mp hmem with h | h
    · exact (List.pairwise_cons.mp hpw).1 x hx h.symm
    · exact hseen x (List.mem_cons_of_mem a hx) h

/-! ### `lastK` and filtered-suffix lemmas -/

theorem lastK_suffix (k : Nat) (l : List Msg) : (lastK k l).IsSuffix l := by
  rw [lastK]
  split_ifs
  · exact List.suffix_refl l
  · exact List.drop_suffix _ l

theorem countP_le_of_nodup_subset {P : Msg → Bool} {l' l : List Msg}
    (hnd : l'.Nodup) (hsub : ∀ x ∈ l', x ∈ l) : l'.countP P ≤ l.countP P := by
  induction l' generalizing l with
  | nil => exact Nat.zero_le _
  | cons a t ih =>
    have ha : a ∈ l := hsub a (List.mem_cons_self a t)
    have hperm : l.Perm (a :: l.erase a) := List.perm_cons_erase ha
    rw [hperm.countP_eq, List.countP_cons, List.countP_cons]
    have hnd' := List.nodup_cons.mp hnd
    refine Nat.add_le_add (ih hnd'.2 ?_) (Nat.le_refl _)
    intro x hx
    refine (List.mem_erase_of_ne (fun he => ?_)).mpr (hsub x (List.mem_cons_of_mem a hx))
    rw [he] at hx
    exact hnd'.1 hx

/-- Pulling a decomposition of `l.filter P` back to a decomposition of `l`. -/
theorem filter_split {α : Type} {P : α → Bool} :
    ∀ (l u v : List α) (m : α), l.filter P = u ++ m :: v →
      ∃ t s, l = t ++ m :: s ∧ t.filter P = u ∧ s.filter P = v := by
  intro l
  induction l with
  | nil =>
    intro u v m h
    rw [List.filter_nil] at h
    exact absurd h.symm (List.append_ne_nil_of_right_ne_nil u (List.cons_ne_nil m v))
  | cons a r ih =>
    intro u v m h
    rw [List.filter_cons] at h
    by_cases hp : P a
    · rw [if_pos hp] at h
      cases u with
      | nil =>
        simp only [List.nil_append, List.cons.injEq] at h
        exact ⟨[], r, by simp [h.1], rfl, h.2⟩
      | cons b u' =>
        simp only [List.cons_append, List.cons.injEq] at h
        obtain ⟨t, s, hl, ht, hs⟩ := ih u' v m h.2
        exact ⟨a :: t, s, by rw [List.cons_append, hl],
          by rw [List.filter_cons, if_pos hp, ht, h.1], hs⟩
    · rw [if_neg hp] at h
      obtain ⟨t, s, hl, ht, hs⟩ := ih u v m h
      exact ⟨a :: t, s, by rw [List.cons_append, hl],
        by rw [List.filter_cons, if_neg hp, ht], hs⟩

/-- A member of the forced tail of the filtered list gives a decomposition of
the source list with a small filtered suffix. -/
theorem mem_lastK_filter_elim {P : Msg → Bool} {k : Nat} {m : Msg} {l : List Msg}
    (hk : 0 < k) (hm : m ∈ lastK k (l.filter P)) :
    ∃ t s, l = t ++ m :: s ∧ s.countP P < k := by
  rw [lastK, if_neg (Nat.pos_iff_ne_zero.mp hk)] at hm
  obtain ⟨u, v, huv⟩ := List.append_of_mem hm
  have hlen : u.length + (v.length + 1) = (l.filter P).length - ((l.filter P).length - k) := by
    have := congrArg List.length huv
    simp only [List.length_drop, List.length_append, List.length_cons] at this
    omega
  have hvk : v.length < k := by omega
  have hdecomp : l.filter P =
      (l.filter P).take ((l.filter P).length - k) ++ (u ++ m :: v) := by
    rw [← huv, List.take_append_drop]
  rw [← List.append_assoc] at hdecomp
  obtain ⟨t, s, hl, _, hs⟩ := filter_split l _ v m hdecomp
  refine ⟨t, s, hl, ?_⟩
  rw [List.countP_eq_length_filter, hs]
  exact hvk

/-- Conversely, an element whose filtered suffix is short is in the forced
tail of the filtered list. -/
theorem mem_lastK_filter_intro {P : Msg → Bool} {k : Nat} {m : Msg} (t s : List Msg)
    (hP : P m = true) (hcount : k = 0 ∨ s.countP P < k) :
    m ∈ lastK k ((t ++ m :: s).filter P) := by
  have hfl : (t ++ m :: s).filter P = t.filter P ++ m :: s.filter P := by
    rw [List.filter_append, List.filter_cons, if_pos hP]
  rcases hcount with hk | hk
  · rw [lastK, if_pos hk, hfl]
    exact List.mem_append_right _ (List.mem_cons_self m _)
  · have hkpos : k ≠ 0 := by omega
    rw [lastK, if_neg hkpos, hfl]
    have hslen : (s.filter P).length < k := by
      rw [← List.countP_eq_length_filter]
      exact hk
    have hd : (t.filter P ++ m :: s.filter P).length - k ≤ (t.filter P).length := by
      simp only [List.length_append, List.length_cons]
      omega
    rw [List.drop_append_of_le_length hd]
    exact List.mem_append_right _ (List.mem_cons_self m _)

/-! ### Normalization invariants -/

theorem dropWhile_idem (p : Char → Bool) (l : List Char) :
    (l.dropWhile p).dropWhile p = l.dropWhile p := by
  induction l with
  | nil => rfl
  | cons a t ih =>
    rw [List.dropWhile_cons]
    split_ifs with h
    · exact ih
    · rw [List.dropWhile_cons, if_neg h]

theorem dropWhile_head_false (p : Char → Bool) :
    ∀ (l : List Char) (a : Char) (t : List Char),
      l.dropWhile p = a :: t → p a = false := by
  intro l
  induction l with
  | nil => intro a t h; cases h
  | cons b r ih =>
    intro a t h
    rw [List.dropWhile_cons] at h
    split_ifs at h with hb
    · exact ih a t h
    · cases h
      simpa using hb

theorem dropWhile_of_head_false {p : Char → Bool} {l : List Char} {a : Char}
    (hh : l.head? = some a) (hp : p a = false) : l.dropWhile p = l := by
  cases l with
  | nil => cases hh
  | cons b t =>
    cases hh
    rw [List.dropWhile_cons, if_neg (by simp [hp])]

theorem getLast?_of_suffix {l₁ l₂ : List Char} (h : l₁.IsSuffix l₂)
    (hne : l₁ ≠ []) : l₂.getLast? = l₁.getLast? := by
  obtain ⟨u, rfl⟩ := h
  rw [List.getLast?_append]
  cases hl : l₁.getLast? with
  | none => exact absurd (List.getLast?_eq_none_iff.mp hl) hne
  | some x => rfl

theorem pyStrip_idem (s : String) : pyStrip (pyStrip s) = pyStrip s := by
  show pyStrip ⟨((s.data.dropWhile isPySpace).reverse.dropWhile isPySpace).reverse⟩ = _
  rw [pyStrip]
  show String.mk _ = String.mk _
  congr 1
  by_cases h2 : (s.data.dropWhile isPySpace).reverse.dropWhile isPySpace = []
  · rw [h2]
    simp
  · obtain ⟨a, t, hat⟩ :
        ∃ a t, (s.data.dropWhile isPySpace).reverse.dropWhile isPySpace = a :: t := by
      cases hc : (s.data.dropWhile isPySpace).reverse.dropWhile isPySpace with
      | nil => exact absurd hc h2
      | cons a t => exact ⟨a, t, rfl⟩
    -- the head of the reversed stripped list is the head of `dropWhile` on the
    -- front, hence not a space
    have hs1ne : s.data.dropWhile isPySpace ≠ [] := by
      intro hnil
      rw [hnil] at hat
      cases hat
    obtain ⟨b, r, hbr⟩ : ∃ b r, s.data.dropWhile isPySpace = b :: r := by
      cases hc : s.data.dropWhile isPySpace with
      | nil => exact absurd hc hs1ne
      | cons b r => exact ⟨b, r, rfl⟩
    have hpb : isPySpace b = false := dropWhile_head_false isPySpace s.data b r hbr
    have hsuf : ((s.data.dropWhile isPySpace).reverse.dropWhile isPySpace).IsSuffix
        (s.data.dropWhile isPySpace).reverse := List.dropWhile_suffix isPySpace
    have hgl : ((s.data.dropWhile isPySpace).reverse.dropWhile isPySpace).getLast? =
        some b := by
      rw [← getLast?_of_suffix hsuf h2, List.getLast?_reverse, hbr]
      rfl
    have hhead : ((s.data.dropWhile isPySpace).reverse.dropWhile isPySpace).reverse.head? =
        some b := by
      rw [List.head?_reverse]
      exact hgl
    rw [dropWhile_of_head_false hhead hpb, List.reverse_reverse, dropWhile_idem]

/-- The invariant satisfied by every message the normalization loop keeps:
its content is strip-stable, non-empty, long enough, and not filtered as a
raw log. -/
def NormalMsg (cfg : MonitorContext) (m : Msg) : Prop :=
  pyStrip m.content = m.content ∧
  m.content ≠ "" ∧
  cfg.min_length ≤ m.content.length ∧
  (cfg.drop_logs && isLogText m.content &&
    !(containsSub "INC-".data m.content.data ||
      containsSub "severity".data (pyLower m.content).data)) = false

theorem normalizeStep_some {cfg : MonitorContext} {r : RawMsg} {m : Msg}
    (h : normalizeStep cfg r = some m) : NormalMsg cfg m := by
  simp only [normalizeStep] at h
  split_ifs at h with h1 h2 h3 h4
  cases h
  refine ⟨pyStrip_idem _, h2, by dsimp only; omega, by simpa using h4⟩

theorem normalizeStep_roundtrip {cfg : MonitorContext} {m : Msg}
    (h : NormalMsg cfg m) :
    normalizeStep cfg ⟨some m.role, Content.str m.content⟩ = some m := by
  obtain ⟨hstrip, hne, hlen, hlog⟩ := h
  rw [normalizeStep]
  simp only [Option.getD_some, extract_text, hstrip]
  rw [if_neg (by simp), if_neg hne, if_neg (by omega),
    if_neg (by intro hc; rw [hlog] at hc; exact Bool.false_ne_true hc)]

/-- The embedding of a compactor output message back into a raw input
message (`{"role": role, "content": content}` with a plain-string content). -/
def msgToRaw (m : Msg) : RawMsg :=
  ⟨some m.role, Content.str m.content⟩

theorem normalizeMsgs_mem {cfg : MonitorContext} {msgs : List RawMsg} {m : Msg}
    (h : m ∈ normalizeMsgs cfg msgs) : NormalMsg cfg m := by
  rw [normalizeMsgs] at h
  obtain ⟨r, _, hr⟩ := List.mem_filterMap.mp h
  exact normalizeStep_some hr

theorem normalizeMsgs_roundtrip {cfg : MonitorContext} {l : List Msg}
    (h : ∀ m ∈ l, NormalMsg cfg m) :
    normalizeMsgs cfg (l.map msgToRaw) = l := by
  induction l with
  | nil => rfl
  | cons a t ih =>
    rw [List.map_cons, normalizeMsgs, List.filterMap_cons]
    rw [show normalizeStep cfg (msgToRaw a) = some a from
      normalizeStep_roundtrip (h a (List.mem_cons_self a t))]
    rw [← normalizeMsgs, ih (fun m hm => h m (List.mem_cons_of_mem a hm))]

/-! ### Pipeline-level lemmas about `assemble` -/

/-- The packing state after the forced loop and the candidate loop. -/
def packStateOf (cfg : MonitorContext) (n : List Msg) : PackState :=
  addCandidates
    (addForced ⟨(cfg.max_context_tokens : Int), []⟩ (forcedInOrderAux (forcedList cfg n) [] n))
    (sortCandidates (candidatesOf cfg n))

theorem assemble_eq (cfg : MonitorContext) (n : List Msg) :
    assemble cfg n = dedupeAux [] (List.insertionSort (leIdx n) (packStateOf cfg n).selected) :=
  rfl

theorem sortCandidates_perm (cs : List (Msg × ℚ)) : (sortCandidates cs).Perm cs :=
  List.perm_insertionSort _ cs

theorem candidatesOf_mem {cfg : MonitorContext} {n : List Msg} {p : Msg × ℚ}
    (h : p ∈ candidatesOf cfg n) :
    p.1 ∈ n ∧ p.2 = scoreOf cfg.drop_logs p.1.role p.1.content ∧
      p.1 ∉ forcedList cfg n := by
  rw [candidatesOf] at h
  obtain ⟨m, hm, rfl⟩ := List.mem_map.mp h
  obtain ⟨hmem, hnf⟩ := List.mem_filter.mp hm
  exact ⟨hmem, rfl, by simpa using hnf⟩

theorem packStateOf_selected (cfg : MonitorContext) (n : List Msg) :
    ∃ t₁ t₂, (packStateOf cfg n).selected = t₁ ++ t₂ ∧
      t₁.Sublist (forcedInOrderAux (forcedList cfg n) [] n) ∧
      t₂.Sublist (((sortCandidates (candidatesOf cfg n)).filter
        (fun p => decide (0 < p.2))).map Prod.fst) := by
  have H1 := addForced_selected (forcedInOrderAux (forcedList cfg n) [] n)
    ⟨(cfg.max_context_tokens : Int), []⟩
  obtain ⟨t₁, h₁, hs₁⟩ := H1
  have H2 := addForced_selected
    (((sortCandidates (candidatesOf cfg n)).filter (fun p => decide (0 < p.2))).map Prod.fst)
    (addForced ⟨(cfg.max_context_tokens : Int), []⟩ (forcedInOrderAux (forcedList cfg n) [] n))
  obtain ⟨t₂, h₂, hs₂⟩ := H2
  refine ⟨t₁, t₂, ?_, hs₁, hs₂⟩
  rw [packStateOf, addCandidates_eq, h₂, h₁]
  simp

theorem forcedList_subset {cfg : MonitorContext} {n : List Msg} {m : Msg}
    (h : m ∈ forcedList cfg n) : m ∈ n := by
  rw [forcedList] at h
  rcases List.mem_append.mp h with h | h <;>
    exact List.mem_of_mem_filter ((lastK_suffix _ _).sublist.subset h)

theorem forcedList_role {cfg : MonitorContext} {n : List Msg} {m : Msg}
    (h : m ∈ forcedList cfg n) : m.role = "user" ∨ m.role = "assistant" := by
  rw [forcedList] at h
  rcases List.mem_append.mp h with h | h
  · exact Or.inl (by simpa using (List.mem_filter.mp ((lastK_suffix _ _).sublist.subset h)).2)
  · exact Or.inr (by simpa using (List.mem_filter.mp ((lastK_suffix _ _).sublist.subset h)).2)

theorem packStateOf_mem {cfg : MonitorContext} {n : List Msg} {m : Msg}
    (h : m ∈ (packStateOf cfg n).selected) : m ∈ n := by
  obtain ⟨t₁, t₂, hsel, hs₁, hs₂⟩ := packStateOf_selected cfg n
  rw [hsel] at h
  rcases List.mem_append.mp h with h | h
  · rcases forcedInOrderAux_mem_of _ [] n m (hs₁.subset h) with h2 | h2
    · cases h2
    · exact h2
  · obtain ⟨p, hp, rfl⟩ := List.mem_map.mp (hs₂.subset h)
    have hps := (sortCandidates_perm _).subset (List.mem_of_mem_filter hp)
    exact (candidatesOf_mem hps).1

theorem packStateOf_src {cfg : MonitorContext} {n : List Msg} {m : Msg}
    (h : m ∈ (packStateOf cfg n).selected) :
    m ∈ forcedList cfg n ∨ 0 < scoreOf cfg.drop_logs m.role m.content := by
  obtain ⟨t₁, t₂, hsel, hs₁, hs₂⟩ := packStateOf_selected cfg n
  rw [hsel] at h
  rcases List.mem_append.mp h with h | h
  · rcases forcedInOrderAux_mem_forced _ [] n m (hs₁.subset h) with h2 | h2
    · cases h2
    · exact Or.inl h2
  · obtain ⟨p, hp, rfl⟩ := List.mem_map.mp (hs₂.subset h)
    obtain ⟨hmem, hpos⟩ := List.mem_filter.mp hp
    have hps := (sortCandidates_perm _).subset hmem
    obtain ⟨_, hscore, _⟩ := candidatesOf_mem hps
    exact Or.inr (by rw [← hscore]; simpa using hpos)

theorem packStateOf_cost (cfg : MonitorContext) (n : List Msg) :
    (msgCosts (packStateOf cfg n).selected : Int) ≤ (cfg.max_context_tokens : Int) := by
  have hb : 0 ≤ (packStateOf cfg n).budget := by
    rw [packStateOf, addCandidates_eq]
    refine addForced_budget_nonneg _ _ (addForced_budget_nonneg _ _ ?_)
    exact Int.natCast_nonneg _
  have hinv : (packStateOf cfg n).budget + (msgCosts (packStateOf cfg n).selected : Int) =
      (cfg.max_context_tokens : Int) + (msgCosts [] : Int) := by
    rw [packStateOf, addCandidates_eq]
    rw [addForced_invariant, addForced_invariant]
  rw [msgCosts_nil] at hinv
  omega

theorem assemble_mem {cfg : MonitorContext} {n : List Msg} {m : Msg}
    (h : m ∈ assemble cfg n) : m ∈ n := by
  rw [assemble_eq] at h
  have h2 := (dedupeAux_sublist _ _).subset h
  exact packStateOf_mem ((List.perm_insertionSort _ _).subset h2)

theorem assemble_src {cfg : MonitorContext} {n : List Msg} {m : Msg}
    (h : m ∈ assemble cfg n) :
    m ∈ forcedList cfg n ∨ 0 < scoreOf cfg.drop_logs m.role m.content := by
  rw [assemble_eq] at h
  have h2 := (dedupeAux_sublist _ _).subset h
  exact packStateOf_src ((List.perm_insertionSort _ _).subset h2)

theorem assemble_keys_pairwise (cfg : MonitorContext) (n : List Msg) :
    (assemble cfg n).Pairwise (fun a b => dedupKey a ≠ dedupKey b) := by
  rw [assemble_eq]
  exact (dedupeAux_keys _ _).1

theorem assemble_nodup (cfg : MonitorContext) (n : List Msg) :
    (assemble cfg n).Nodup :=
  pairwise_imp_mem (assemble_keys_pairwise cfg n)
    (fun a b _ _ hk hab => hk (by rw [hab]))

theorem assemble_sorted (cfg : MonitorContext) (n : List Msg) :
    (assemble cfg n).Pairwise (leIdx n) := by
  rw [assemble_eq]
  exact (List.sorted_insertionSort (leIdx n) (packStateOf cfg n).selected).sublist
    (dedupeAux_sublist _ _)

theorem assemble_pairwise_strict (cfg : MonitorContext) (n : List Msg) :
    (assemble cfg n).Pairwise (fun a b => lastIdxOf n a < lastIdxOf n b) := by
  have hand := (assemble_sorted cfg n).and (assemble_nodup cfg n)
  refine pairwise_imp_mem hand ?_
  intro a b ha hb hr
  refine Nat.lt_of_le_of_ne hr.1 (fun he => hr.2 ?_)
  have h1 := lastIdxOf_getElem (assemble_mem ha)
  have h2 := lastIdxOf_getElem (assemble_mem hb)
  rw [he, h2] at h1
  exact (Option.some.inj h1).symm

theorem assemble_sublist (cfg : MonitorContext) (n : List Msg) :
    (assemble cfg n).Sublist n := by
  refine sublist_of_index_strict (assemble cfg n) (lastIdxOf n) n ?_
    (assemble_pairwise_strict cfg n)
  intro a ha
  exact lastIdxOf_getElem (assemble_mem ha)

theorem assemble_cost (cfg : MonitorContext) (n : List Msg) :
    msgCosts (assemble cfg n) ≤ cfg.max_context_tokens := by
  have h1 : msgCosts (assemble cfg n) ≤ msgCosts (packStateOf cfg n).selected := by
    rw [assemble_eq]
    refine le_of_le_of_eq (msgCosts_sublist_le (dedupeAux_sublist _ _)) ?_
    exact msgCosts_perm (List.perm_insertionSort _ _)
  have h2 := packStateOf_cost cfg n
  omega

/-- The raw message list `prepare_context` actually processes for a given
input (string recovery applied; a non-list input contributes nothing). -/
def recoveredMsgs (loader : String → Option (List RawMsg)) : PyInput → List RawMsg
  | .str s =>
    match tryParseSerialized loader s with
    | some parsed => parsed
    | none => [⟨some "user", Content.str s⟩]
  | .list msgs => msgs
  | .other => []

theorem prepare_context_eq (loader : String → Option (List RawMsg))
    (cfg : MonitorContext) (input : PyInput) :
    prepare_context loader cfg input = prepareCore cfg (recoveredMsgs loader input) := by
  cases input with
  | str s =>
    rw [prepare_context, recoveredMsgs]
    cases tryParseSerialized loader s <;> rfl
  | list msgs => rfl
  | other => rfl

theorem prepareCore_cases (cfg : MonitorContext) (msgs : List RawMsg) :
    prepareCore cfg msgs = [] ∨
    prepareCore cfg msgs = assemble cfg (normalizeMsgs cfg msgs) := by
  rw [prepareCore]
  by_cases h : normalizeMsgs cfg msgs = []
  · exact Or.inl (by rw [if_pos h])
  · exact Or.inr (by rw [if_neg h])

/-- C2: the compactor's output always fits the budget: the total estimated
token cost of the output is at most `max_context_tokens` (so in particular
the claimed disjunction holds, its first disjunct being unconditional);
moreover `try_add` never lets the remaining budget become negative and a
candidate that does not fit is skipped whole, leaving the state unchanged
rather than truncating the message. -/
theorem c2_budget_invariant (loader : String → Option (List RawMsg))
    (cfg : MonitorContext) (input : PyInput) :
    msgCosts (prepare_context loader cfg input) ≤ cfg.max_context_tokens ∧
    (∀ (st : PackState) (m : Msg), 0 ≤ st.budget → 0 ≤ ((tryAdd st m).1).budget) ∧
    (∀ (st : PackState) (m : Msg),
      st.budget - (estimate_tokens m.content : Int) < 0 → tryAdd st m = (st, false)) := by
  refine ⟨?_, tryAdd_budget_nonneg, tryAdd_skip⟩
  rw [prepare_context_eq]
  rcases prepareCore_cases cfg (recoveredMsgs loader input) with h | h <;> rw [h]
  · exact Nat.zero_le _
  · exact assemble_cost cfg _

/-- C2 witness: the budget bound on a concrete history, a concrete
`try_add` preserving non-negativity, and a concrete oversized skip. -/
theorem c2_budget_invariant_witness :
    msgCosts (prepare_context (fun _ => none) {}
        (.list [⟨some "user", Content.str "please fix the outage"⟩])) ≤
      ({} : MonitorContext).max_context_tokens ∧
    0 ≤ ((tryAdd ⟨5, []⟩ ⟨"user", "hello"⟩).1).budget ∧
    tryAdd ⟨1, []⟩ ⟨"user", "abcdefgh"⟩ = (⟨1, []⟩, false) :=
  ⟨(c2_budget_invariant (fun _ => none) {} _).1,
   (c2_budget_invariant (fun _ => none) {} .other).2.1 ⟨5, []⟩ ⟨"user", "hello"⟩ (by decide),
   (c2_budget_invariant (fun _ => none) {} .other).2.2 ⟨1, []⟩ ⟨"user", "abcdefgh"⟩ (by decide)⟩

/-- C4: the compactor's output is a chronological subsequence of the
normalized (filtered) input: even though selection proceeds in
descending-score order internally, the emitted list is a sublist of the
normalized message list in source order. -/
theorem c4_chronological_sublist (loader : String → Option (List RawMsg))
    (cfg : MonitorContext) (input : PyInput) :
    (prepare_context loader cfg input).Sublist
      (normalizeMsgs cfg (recoveredMsgs loader input)) := by
  rw [prepare_context_eq]
  rcases prepareCore_cases cfg (recoveredMsgs loader input) with h | h <;> rw [h]
  · exact List.nil_sublist _
  · exact assemble_sublist cfg _

theorem pyTake_of_le {s : String} {n : Nat} (h : s.length ≤ n) : pyTake n s = s := by
  rw [pyTake, List.take_of_length_le h]

theorem dedupKey_inj {a b : Msg} (ha : a.content.length ≤ 900)
    (hb : b.content.length ≤ 900) (h : dedupKey a = dedupKey b) : a = b := by
  rw [dedupKey, dedupKey, Prod.mk.injEq] at h
  obtain ⟨hr, hc⟩ := h
  rw [pyTake_of_le ha, pyTake_of_le hb] at hc
  cases a
  cases b
  simp_all

/-- C1 counterexample: with `max_context_tokens = 1`, a single user message
of cost 2 is forced-retention (it is the most recent user message and
survives normalization), yet `prepare_context` returns the empty list: the
budget check in `try_add` applies to forced messages too, so forced
retention does **not** override the budget. -/
theorem c1_forced_retention_counterexample :
    (⟨"user", "abcdefgh"⟩ : Msg) ∈
      forcedList { max_context_tokens := 1 }
        (normalizeMsgs { max_context_tokens := 1 }
          [⟨some "user", Content.str "abcdefgh"⟩]) ∧
    prepare_context (fun _ => none) { max_context_tokens := 1 }
      (.list [⟨some "user", Content.str "abcdefgh"⟩]) = [] := by
  constructor
  · decide
  · decide

/-- C1 (amended): every forced-retention message appears in the output
*provided* the forced messages' total estimated cost fits within
`max_context_tokens` (they are packed first, but through the same budget
check as everything else) and no retained content exceeds 900 characters
(so the final `(role, content[:900])` dedup key cannot identify two distinct
retained messages).  Without the budget proviso the claim fails
(`c1_forced_retention_counterexample`). -/
theorem c1_forced_retention (loader : String → Option (List RawMsg))
    (cfg : MonitorContext) (input : PyInput)
    (hlen : ∀ m ∈ normalizeMsgs cfg (recoveredMsgs loader input), m.content.length ≤ 900)
    (hfit : (msgCosts (forcedList cfg (normalizeMsgs cfg (recoveredMsgs loader input))) : Int)
      ≤ (cfg.max_context_tokens : Int)) :
    ∀ f ∈ forcedList cfg (normalizeMsgs cfg (recoveredMsgs loader input)),
      f ∈ prepare_context loader cfg input := by
  intro f hf
  set n := normalizeMsgs cfg (recoveredMsgs loader input) with hn
  have hfn : f ∈ n := forcedList_subset hf
  have hne : n ≠ [] := by
    intro h
    rw [h] at hfn
    cases hfn
  rw [prepare_context_eq, prepareCore, ← hn, if_neg hne]
  have hfio_nodup : (forcedInOrderAux (forcedList cfg n) [] n).Nodup :=
    forcedInOrderAux_nodup _ [] n List.nodup_nil
  have hfio_sub : ∀ x ∈ forcedInOrderAux (forcedList cfg n) [] n, x ∈ forcedList cfg n := by
    intro x hx
    rcases forcedInOrderAux_mem_forced _ [] n x hx with h | h
    · cases h
    · exact h
  have hfio_cost : (msgCosts (forcedInOrderAux (forcedList cfg n) [] n) : Int) ≤
      (cfg.max_context_tokens : Int) := by
    have := msgCosts_le_of_nodup_subset hfio_nodup hfio_sub
    omega
  have h1 : addForced ⟨(cfg.max_context_tokens : Int), []⟩
      (forcedInOrderAux (forcedList cfg n) [] n) =
      ⟨(cfg.max_context_tokens : Int) -
          (msgCosts (forcedInOrderAux (forcedList cfg n) [] n) : Int),
        [] ++ forcedInOrderAux (forcedList cfg n) [] n⟩ :=
    addForced_all_fit _ _ hfio_cost
  have hffio : f ∈ forcedInOrderAux (forcedList cfg n) [] n :=
    forcedInOrderAux_mem _ [] n f hf (Or.inr hfn)
  have h2 : f ∈ (packStateOf cfg n).selected := by
    have H2 := addForced_selected
      (((sortCandidates (candidatesOf cfg n)).filter
        (fun p => decide (0 < p.2))).map Prod.fst)
      (addForced ⟨(cfg.max_context_tokens : Int), []⟩
        (forcedInOrderAux (forcedList cfg n) [] n))
    obtain ⟨t₂, hsel, -⟩ := H2
    rw [packStateOf, addCandidates_eq, hsel, h1]
    exact List.mem_append_left _ (by simpa using hffio)
  have h3 : f ∈ List.insertionSort (leIdx n) (packStateOf cfg n).selected := by
    rw [List.mem_insertionSort]
    exact h2
  obtain ⟨y, hy, hky⟩ := dedupeAux_mem_key [] _ f h3 (by simp)
  have hy' : y ∈ assemble cfg n := by
    rw [assemble_eq]
    exact hy
  have hyf : y = f := dedupKey_inj (hlen y (assemble_mem hy')) (hlen f hfn) hky
  rw [← hyf]
  exact hy'

/-- C1 witness: with the default configuration, a short history whose forced
messages fit the budget retains its most recent user message. -/
theorem c1_forced_retention_witness :
    (⟨"user", "please fix the outage"⟩ : Msg) ∈
      prepare_context (fun _ => none) {}
        (.list [⟨some "user", Content.str "please fix the outage"⟩,
                ⟨some "assistant", Content.str "deployed a fix"⟩]) :=
  c1_forced_retention (fun _ => none) {}
    (.list [⟨some "user", Content.str "please fix the outage"⟩,
            ⟨some "assistant", Content.str "deployed a fix"⟩])
    (by decide) (by decide) ⟨"user", "please fix the outage"⟩ (by decide)

/-! ### Idempotence machinery -/

/-- Two permuted lists that are both strictly increasing under the same
index map are equal. -/
theorem perm_eq_of_pairwise_lt {α : Type} (f : α → Nat) :
    ∀ (l₁ l₂ : List α), l₁.Perm l₂ →
      l₁.Pairwise (fun a b => f a < f b) → l₂.Pairwise (fun a b => f a < f b) →
      l₁ = l₂ := by
  intro l₁
  induction l₁ with
  | nil =>
    intro l₂ hp _ _
    exact hp.nil_eq
  | cons a t ih =>
    intro l₂ hp h₁ h₂
    cases l₂ with
    | nil => cases hp.symm.nil_eq
    | cons b t₂ =>
      have hab : a = b := by
        by_contra hne
        have hbmem : b ∈ a :: t := hp.mem_iff.mpr (List.mem_cons_self b t₂)
        have hamem : a ∈ b :: t₂ := hp.mem_iff.mp (List.mem_cons_self a t)
        rcases List.mem_cons.mp hbmem with h | h
        · exact hne h.symm
        · have hfab : f a < f b := (List.pairwise_cons.mp h₁).1 b h
          rcases List.mem_cons.mp hamem with h' | h'
          · exact hne h'
          · have hfba : f b < f a := (List.pairwise_cons.mp h₂).1 a h'
            omega
      subst hab
      rw [ih t₂ hp.cons_inv (List.pairwise_cons.mp h₁).2 (List.pairwise_cons.mp h₂).2]

/-- Forced retention is stable under compaction: a message of the output that
was in the forced tail of a filtered view of `n` is in the forced tail of the
same filtered view of the output.  (The output sits at strictly increasing
last-occurrence positions of `n`, so the elements after it in the output all
occur after its last occurrence in `n`.) -/
theorem forced_part_preserved (P : Msg → Bool) (k : Nat) (cfg : MonitorContext)
    (n : List Msg) {m : Msg} (hm : m ∈ assemble cfg n)
    (hf : m ∈ lastK k (n.filter P)) :
    m ∈ lastK k ((assemble cfg n).filter P) := by
  have hPm : P m = true :=
    (List.mem_filter.mp ((lastK_suffix _ _).sublist.subset hf)).2
  by_cases hk : k = 0
  · subst hk
    rw [lastK, if_pos rfl]
    exact List.mem_filter.mpr ⟨hm, hPm⟩
  · obtain ⟨t, s, hns, hcount⟩ := mem_lastK_filter_elim (Nat.pos_of_ne_zero hk) hf
    obtain ⟨u, v, houv⟩ := List.append_of_mem hm
    have hvsub : v.Sublist (assemble cfg n) := by
      rw [houv]
      exact ((List.sublist_cons_self m v).trans (List.sublist_append_right u (m :: v)))
    have hvnodup : v.Nodup := hvsub.nodup (assemble_nodup cfg n)
    have hvm : ∀ b ∈ v, b ∈ n.drop (lastIdxOf n m + 1) := by
      intro b hb
      have hpw := assemble_pairwise_strict cfg n
      rw [houv] at hpw
      have hmv : (m :: v).Pairwise (fun a b => lastIdxOf n a < lastIdxOf n b) :=
        hpw.sublist (List.sublist_append_right u (m :: v))
      have hlt : lastIdxOf n m < lastIdxOf n b := (List.pairwise_cons.mp hmv).1 b hb
      have hbmem : b ∈ n := assemble_mem (hvsub.subset hb)
      have hbget := lastIdxOf_getElem hbmem
      have hdropget : (n.drop (lastIdxOf n m + 1))[lastIdxOf n b - (lastIdxOf n m + 1)]? =
          some b := by
        rw [List.getElem?_drop]
        rw [show lastIdxOf n m + 1 + (lastIdxOf n b - (lastIdxOf n m + 1)) = lastIdxOf n b
          by omega]
        exact hbget
      exact List.getElem?_mem hdropget
    have hcount2 : v.countP P ≤ (n.drop (lastIdxOf n m + 1)).countP P :=
      countP_le_of_nodup_subset hvnodup hvm
    have hcount3 : (n.drop (lastIdxOf n m + 1)).countP P ≤ s.countP P := by
      have hsuf := drop_lastIdxOf_suffix m t s
      rw [← hns] at hsuf
      exact hsuf.sublist.countP_le P
    rw [houv]
    exact mem_lastK_filter_intro u v hPm (Or.inr (by omega))

/-- A forced-retention message surviving into the output is forced-retention
for the output as well. -/
theorem forced_preserved (cfg : MonitorContext) (n : List Msg) {m : Msg}
    (hm : m ∈ assemble cfg n) (hf : m ∈ forcedList cfg n) :
    m ∈ forcedList cfg (assemble cfg n) := by
  rw [forcedList] at hf ⊢
  rcases List.mem_append.mp hf with hf | hf
  · exact List.mem_append_left _ (forced_part_preserved _ _ cfg n hm hf)
  · exact List.mem_append_right _ (forced_part_preserved _ _ cfg n hm hf)

/-- The fixpoint core: a duplicate-key-free list that fits the budget, whose
every member is either forced for the list itself or positively scored, is
left unchanged by the forced/score/pack/sort/dedup pipeline. -/
theorem assemble_fixpoint_general (cfg : MonitorContext) (out : List Msg)
    (hnodup : out.Nodup)
    (hkeys : out.Pairwise (fun a b => dedupKey a ≠ dedupKey b))
    (hcost : msgCosts out ≤ cfg.max_context_tokens)
    (hsrc : ∀ m ∈ out,
      m ∈ forcedList cfg out ∨ 0 < scoreOf cfg.drop_logs m.role m.content) :
    assemble cfg out = out := by
  have hfio : forcedInOrderAux (forcedList cfg out) [] out =
      out.filter (fun m => decide (m ∈ forcedList cfg out)) := by
    rw [forcedInOrderAux_eq_filter (forcedList cfg out) out []
      hnodup (fun x _ h => by cases h)]
    rw [List.nil_append]
  have hpart := msgCosts_filter_partition (fun m => decide (m ∈ forcedList cfg out)) out
  have hfit1 : (msgCosts (out.filter (fun m => decide (m ∈ forcedList cfg out))) : Int) ≤
      (cfg.max_context_tokens : Int) := by
    have := msgCosts_sublist_le (List.filter_sublist out
      (p := fun m => decide (m ∈ forcedList cfg out)))
    omega
  have hQ : candidatesOf cfg out =
      (out.filter (fun m => !(decide (m ∈ forcedList cfg out)))).map
        (fun m => (m, scoreOf cfg.drop_logs m.role m.content)) := by
    rw [candidatesOf]
    congr 1
    apply List.filter_congr
    intro m _
    simp [decide_not]
  have e1 : (candidatesOf cfg out).filter (fun p => decide (0 < p.2)) =
      ((out.filter (fun m => !(decide (m ∈ forcedList cfg out)))).filter
        (fun m => decide (0 < scoreOf cfg.drop_logs m.role m.content))).map
        (fun m => (m, scoreOf cfg.drop_logs m.role m.content)) := by
    rw [hQ, List.filter_map]
    rfl
  have hpos : (out.filter (fun m => !(decide (m ∈ forcedList cfg out)))).filter
      (fun m => decide (0 < scoreOf cfg.drop_logs m.role m.content)) =
      out.filter (fun m => !(decide (m ∈ forcedList cfg out))) := by
    rw [List.filter_eq_self]
    intro a ha
    obtain ⟨han, hanp⟩ := List.mem_filter.mp ha
    have hnf : a ∉ forcedList cfg out := by simpa using hanp
    rcases hsrc a han with h | h
    · exact absurd h hnf
    · simpa using h
  have hLperm : (((sortCandidates (candidatesOf cfg out)).filter
      (fun p => decide (0 < p.2))).map Prod.fst).Perm
      (out.filter (fun m => !(decide (m ∈ forcedList cfg out)))) := by
    have p1 := ((sortCandidates_perm (candidatesOf cfg out)).filter
      (fun p => decide (0 < p.2))).map Prod.fst
    refine p1.trans ?_
    rw [e1, hpos, List.map_map]
    rw [show List.map (Prod.fst ∘ fun m => (m, scoreOf cfg.drop_logs m.role m.content))
        (List.filter (fun m => !decide (m ∈ forcedList cfg out)) out) =
      List.filter (fun m => !decide (m ∈ forcedList cfg out)) out
      from List.map_id'' (fun x => rfl) _]
  have hLcost : msgCosts (((sortCandidates (candidatesOf cfg out)).filter
      (fun p => decide (0 < p.2))).map Prod.fst) =
      msgCosts (out.filter (fun m => !(decide (m ∈ forcedList cfg out)))) :=
    msgCosts_perm hLperm
  have h1 : addForced ⟨(cfg.max_context_tokens : Int), []⟩
      (out.filter (fun m => decide (m ∈ forcedList cfg out))) =
      ⟨(cfg.max_context_tokens : Int) -
          (msgCosts (out.filter (fun m => decide (m ∈ forcedList cfg out))) : Int),
        [] ++ out.filter (fun m => decide (m ∈ forcedList cfg out))⟩ :=
    addForced_all_fit _ _ hfit1
  have h2 : addForced
      ⟨(cfg.max_context_tokens : Int) -
          (msgCosts (out.filter (fun m => decide (m ∈ forcedList cfg out))) : Int),
        [] ++ out.filter (fun m => decide (m ∈ forcedList cfg out))⟩
      (((sortCandidates (candidatesOf cfg out)).filter
        (fun p => decide (0 < p.2))).map Prod.fst) =
      ⟨(cfg.max_context_tokens : Int) -
          (msgCosts (out.filter (fun m => decide (m ∈ forcedList cfg out))) : Int) -
          (msgCosts (((sortCandidates (candidatesOf cfg out)).filter
            (fun p => decide (0 < p.2))).map Prod.fst) : Int),
        ([] ++ out.filter (fun m => decide (m ∈ forcedList cfg out))) ++
          ((sortCandidates (candidatesOf cfg out)).filter
            (fun p => decide (0 < p.2))).map Prod.fst⟩ := by
    refine addForced_all_fit _ _ ?_
    dsimp only
    rw [hLcost]
    omega
  have hsel : (packStateOf cfg out).selected =
      out.filter (fun m => decide (m ∈ forcedList cfg out)) ++
        ((sortCandidates (candidatesOf cfg out)).filter
          (fun p => decide (0 < p.2))).map Prod.fst := by
    rw [packStateOf, addCandidates_eq, hfio, h1, h2]
    rw [List.nil_append]
  have hpermsel : ((packStateOf cfg out).selected).Perm out := by
    rw [hsel]
    exact (List.Perm.append_left
        (out.filter (fun m => decide (m ∈ forcedList cfg out))) hLperm).trans
      (List.filter_append_perm _ out)
  have hps : (List.insertionSort (leIdx out) (packStateOf cfg out).selected).Perm out :=
    (List.perm_insertionSort _ _).trans hpermsel
  have hspw : (List.insertionSort (leIdx out) (packStateOf cfg out).selected).Pairwise
      (fun a b => lastIdxOf out a < lastIdxOf out b) := by
    have hand := (List.sorted_insertionSort (leIdx out)
      (packStateOf cfg out).selected).and (hps.nodup_iff.mpr hnodup)
    refine pairwise_imp_mem hand ?_
    intro a b ha hb hr
    refine Nat.lt_of_le_of_ne hr.1 (fun he => hr.2 ?_)
    have h1g := lastIdxOf_getElem (hps.subset ha)
    have h2g := lastIdxOf_getElem (hps.subset hb)
    rw [he, h2g] at h1g
    exact (Option.some.inj h1g).symm
  have hsorteq : List.insertionSort (leIdx out) (packStateOf cfg out).selected = out :=
    perm_eq_of_pairwise_lt (lastIdxOf out) _ out hps hspw
      (nodup_pairwise_lastIdx hnodup)
  rw [assemble_eq, hsorteq]
  exact dedupeAux_eq_self [] out hkeys (fun x _ h => by cases h)

theorem assemble_fixpoint (cfg : MonitorContext) (n : List Msg) :
    assemble cfg (assemble cfg n) = assemble cfg n := by
  refine assemble_fixpoint_general cfg (assemble cfg n) (assemble_nodup cfg n)
    (assemble_keys_pairwise cfg n) (assemble_cost cfg n) ?_
  intro m hm
  rcases assemble_src hm with h | h
  · exact Or.inl (forced_preserved cfg n hm h)
  · exact Or.inr h

/-- C3: compaction is idempotent on its own output: re-running
`prepare_context` (with the same configuration) on the list of message dicts
it produced returns that list unchanged. -/
theorem c3_idempotent (loader : String → Option (List RawMsg))
    (cfg : MonitorContext) (input : PyInput) :
    prepare_context loader cfg
      (.list ((prepare_context loader cfg input).map msgToRaw)) =
    prepare_context loader cfg input := by
  rw [show prepare_context loader cfg
        (.list ((prepare_context loader cfg input).map msgToRaw)) =
      prepareCore cfg ((prepare_context loader cfg input).map msgToRaw) from rfl]
  rw [prepare_context_eq loader cfg input]
  rcases prepareCore_cases cfg (recoveredMsgs loader input) with h | h <;> rw [h]
  · rfl
  · have hnm : ∀ m ∈ normalizeMsgs cfg (recoveredMsgs loader input), NormalMsg cfg m :=
      fun m hm => normalizeMsgs_mem hm
    have hnorm : normalizeMsgs cfg
        ((assemble cfg (normalizeMsgs cfg (recoveredMsgs loader input))).map msgToRaw) =
        assemble cfg (normalizeMsgs cfg (recoveredMsgs loader input)) :=
      normalizeMsgs_roundtrip (fun m hm => hnm m (assemble_mem hm))
    rw [prepareCore, hnorm]
    by_cases hoe : assemble cfg (normalizeMsgs cfg (recoveredMsgs loader input)) = []
    · rw [if_pos hoe]
      exact hoe.symm
    · rw [if_neg hoe]
      exact assemble_fixpoint cfg _
